import Mathlib

/-!
# Verification of the BOM resolution engine of `bom_manager.py`

A shallow embedding of the `BOMDatabase` class of `src/bom_manager.py`.
The SQLite tables become lists of rows, SQL `SELECT` queries become pure
functions over those lists, and the two recursive resolver methods
(`calculate_bom_cost`, `get_flattened_bom`) become fuel-indexed functions
returning `Option` (`none` models a call that never completes within the
given recursion budget; the Python source has no cycle guard, so on a
cyclic graph it recurses unboundedly).

Numeric fields (`REAL` columns, Python floats) are modelled as exact
rationals `ℚ`, following the specification's numeric policy that costs and
quantities are real numbers.  Nullable SQL columns are modelled with
`Option`.  Python truthiness of `comp['unit_cost']` (which rejects both
`None` and `0.0`) is translated explicitly.
-/

namespace BomManager

/-- Row of the `products` table (columns used by the resolver). -/
structure ProductRow where
  product_id : Nat
  part_number : String
  description : String
deriving DecidableEq, Repr

/-- Row of the `components` table (columns used by the resolver). -/
structure ComponentRow where
  component_id : Nat
  mfg_part_number : String
  manufacturer : String
  description : String
  category : String
  unit_of_measure : String
deriving DecidableEq, Repr

/-- Row of the `component_sources` table.  `unit_cost` is a nullable `REAL`
column, and `lead_time_days` a nullable `INTEGER`. -/
structure SourceRow where
  source_id : Nat
  component_id : Nat
  distributor : String
  distributor_part_number : String
  unit_cost : Option ℚ
  minimum_order_qty : Nat
  lead_time_days : Option Nat
  last_updated : Nat
deriving DecidableEq, Repr

/-- Row of the `bom_entries` table. -/
structure BomEntryRow where
  entry_id : Nat
  product_id : Nat
  component_id : Nat
  quantity : ℚ
  reference_designators : String
  do_not_populate : Bool
deriving DecidableEq, Repr

/-- Row of the `sub_assemblies` table. -/
structure SubAssemblyRow where
  sub_assembly_id : Nat
  parent_product_id : Nat
  child_product_id : Nat
  quantity : ℚ
  reference_designators : String
deriving DecidableEq, Repr

/-- The database state: the five tables created by `create_tables`, plus the
autoincrement counter that supplies `source_id`s (`cursor.lastrowid`). -/
structure DB where
  products : List ProductRow
  components : List ComponentRow
  component_sources : List SourceRow
  bom_entries : List BomEntryRow
  sub_assemblies : List SubAssemblyRow
  next_source_id : Nat
deriving DecidableEq, Repr

/-! ## Best source selection

Each of the correlated subqueries in `get_product_bom` is
`SELECT ... FROM component_sources WHERE component_id = ? ORDER BY unit_cost
ASC LIMIT 1`.  In SQLite, `NULL` sorts before every number under `ASC`, so a
source with a `NULL` cost is selected in preference to priced ones. -/

/-- SQLite `ORDER BY unit_cost ASC` comparison on source rows: `NULL` first,
then numeric order. -/
def costLE (a b : SourceRow) : Prop :=
  match a.unit_cost, b.unit_cost with
  | none, _ => True
  | some _, none => False
  | some x, some y => x ≤ y

instance : DecidableRel costLE := fun a b => by
  unfold costLE
  cases a.unit_cost <;> cases b.unit_cost <;> infer_instance

/-- `WHERE component_id = ?` over `component_sources`. -/
def sourcesFor (db : DB) (cid : Nat) : List SourceRow :=
  db.component_sources.filter (fun s => s.component_id == cid)

/-- The row chosen by `ORDER BY unit_cost ASC LIMIT 1` (`none` when the
component has no sources). -/
def bestSource (db : DB) (cid : Nat) : Option SourceRow :=
  (List.insertionSort costLE (sourcesFor db cid)).head?

/-- The `unit_cost` column of the selected row: `none` when the component has
no sources at all, or when the selected (cheapest) source has a `NULL` cost. -/
def bestUnitCost (db : DB) (cid : Nat) : Option ℚ :=
  (bestSource db cid).bind (fun s => s.unit_cost)

/-! ## `get_product_bom`: the joined rows -/

/-- One row of the component query of `get_product_bom`: `bom_entries`
joined with `components`, decorated with the best-source subquery columns. -/
structure CompLine where
  component_id : Nat
  entry_id : Nat
  mfg_part_number : String
  manufacturer : String
  description : String
  category : String
  unit_of_measure : String
  quantity : ℚ
  reference_designators : String
  do_not_populate : Bool
  distributor : Option String
  distributor_part_number : Option String
  unit_cost : Option ℚ
  minimum_order_qty : Option Nat
  lead_time_days : Option Nat
deriving DecidableEq, Repr

/-- One row of the sub-assembly query of `get_product_bom`:
`sub_assemblies` joined with `products`.  `product_id` is the child's id. -/
structure SubLine where
  sub_assembly_id : Nat
  part_number : String
  description : String
  quantity : ℚ
  reference_designators : String
  product_id : Nat
deriving DecidableEq, Repr

/-- Build the joined row for a BOM entry `be` and its component `c`. -/
def mkCompLine (db : DB) (be : BomEntryRow) (c : ComponentRow) : CompLine :=
  { component_id := c.component_id
    entry_id := be.entry_id
    mfg_part_number := c.mfg_part_number
    manufacturer := c.manufacturer
    description := c.description
    category := c.category
    unit_of_measure := c.unit_of_measure
    quantity := be.quantity
    reference_designators := be.reference_designators
    do_not_populate := be.do_not_populate
    distributor := (bestSource db c.component_id).map (fun s => s.distributor)
    distributor_part_number :=
      (bestSource db c.component_id).map (fun s => s.distributor_part_number)
    unit_cost := bestUnitCost db c.component_id
    minimum_order_qty := (bestSource db c.component_id).map (fun s => s.minimum_order_qty)
    lead_time_days := (bestSource db c.component_id).bind (fun s => s.lead_time_days) }

/-- The `dnp_filter`: with `include_dnp = False` the query appends
`AND be.do_not_populate = 0`. -/
def dnpKeep (include_dnp : Bool) (be : BomEntryRow) : Bool :=
  include_dnp || !be.do_not_populate

/-- The component query before its `ORDER BY`: filter `bom_entries` by
product (and the DNP flag), inner-join with `components`. -/
def joinedComponents (db : DB) (pid : Nat) (include_dnp : Bool) : List CompLine :=
  (db.bom_entries.filter (fun be => be.product_id == pid && dnpKeep include_dnp be)).filterMap
    (fun be =>
      (db.components.find? (fun c => c.component_id == be.component_id)).map
        (mkCompLine db be))

/-- SQL `ORDER BY f, g` on two text columns: lexicographic comparison. -/
def lexLE (f g : α → String) (a b : α) : Prop :=
  f a < f b ∨ (f a = f b ∧ g a ≤ g b)

instance (f g : α → String) : DecidableRel (lexLE f g) := fun a b => by
  unfold lexLE
  infer_instance

theorem lexLE_total (f g : α → String) (a b : α) : lexLE f g a b ∨ lexLE f g b a := by
  rcases lt_trichotomy (f a) (f b) with h | h | h
  · exact Or.inl (Or.inl h)
  · rcases le_total (g a) (g b) with h2 | h2
    · exact Or.inl (Or.inr ⟨h, h2⟩)
    · exact Or.inr (Or.inr ⟨h.symm, h2⟩)
  · exact Or.inr (Or.inl h)

theorem lexLE_trans (f g : α → String) (a b c : α)
    (hab : lexLE f g a b) (hbc : lexLE f g b c) : lexLE f g a c := by
  rcases hab with h1 | ⟨h1, h1'⟩ <;> rcases hbc with h2 | ⟨h2, h2'⟩
  · exact Or.inl (h1.trans h2)
  · exact Or.inl (h2 ▸ h1)
  · exact Or.inl (h1 ▸ h2)
  · exact Or.inr ⟨h1.trans h2, h1'.trans h2'⟩

instance (f g : α → String) : IsTotal α (lexLE f g) := ⟨lexLE_total f g⟩

instance (f g : α → String) : IsTrans α (lexLE f g) := ⟨lexLE_trans f g⟩

/-- The full component half of `get_product_bom`:
`ORDER BY be.reference_designators, c.mfg_part_number`. -/
def directComponents (db : DB) (pid : Nat) (include_dnp : Bool) : List CompLine :=
  List.insertionSort
    (lexLE (fun l => l.reference_designators) (fun l => l.mfg_part_number))
    (joinedComponents db pid include_dnp)

/-- The sub-assembly query before its `ORDER BY`: filter `sub_assemblies`
by parent, inner-join with `products`. -/
def joinedSubAssemblies (db : DB) (pid : Nat) : List SubLine :=
  (db.sub_assemblies.filter (fun sa => sa.parent_product_id == pid)).filterMap
    (fun sa =>
      (db.products.find? (fun p => p.product_id == sa.child_product_id)).map
        (fun p =>
          { sub_assembly_id := sa.sub_assembly_id
            part_number := p.part_number
            description := p.description
            quantity := sa.quantity
            reference_designators := sa.reference_designators
            product_id := p.product_id }))

/-- The full sub-assembly half of `get_product_bom`:
`ORDER BY sa.reference_designators, p.part_number`. -/
def directSubAssemblies (db : DB) (pid : Nat) : List SubLine :=
  List.insertionSort
    (lexLE (fun l => l.reference_designators) (fun l => l.part_number))
    (joinedSubAssemblies db pid)

/-- `get_product_bom(product_id, include_dnp)`: the pair of fetched row
lists.  The Python method only executes `SELECT` statements. -/
def get_product_bom (db : DB) (pid : Nat) (include_dnp : Bool) :
    List CompLine × List SubLine :=
  (directComponents db pid include_dnp, directSubAssemblies db pid)

/-! ## `calculate_bom_cost` -/

/-- One dict of the `component_costs` breakdown list. -/
structure LineItem where
  item : String
  quantity : ℚ
  unit_cost : ℚ
  total : ℚ
deriving DecidableEq, Repr

/-- The f-string label of a direct component line. -/
def compLabel (c : CompLine) : String :=
  c.mfg_part_number ++ " (" ++ c.manufacturer ++ ")"

/-- The f-string label of a sub-assembly rollup line. -/
def subLabel (s : SubLine) : String :=
  "[SUB-ASSEMBLY] " ++ s.part_number ++ " - " ++ s.description

/-- One iteration of the `for comp in components` loop.  The Python guard is
`if comp['unit_cost']:` — truthiness, so both `None` and `0.0` skip the whole
block (no contribution, no breakdown line). -/
def compStep (q : ℚ) (acc : ℚ × List LineItem) (comp : CompLine) : ℚ × List LineItem :=
  match comp.unit_cost with
  | none => acc
  | some c =>
    if c = 0 then acc
    else
      (acc.1 + c * comp.quantity * q,
        acc.2 ++ [⟨compLabel comp, comp.quantity, c, c * comp.quantity * q⟩])

/-- The whole `for comp in components` loop, starting from
`total_cost = 0.0`, `component_costs = []`. -/
def processComponents (q : ℚ) (comps : List CompLine) : ℚ × List LineItem :=
  comps.foldl (compStep q) (0, [])

/-- `sub_cost / (sub_quantity * quantity)` guarded by
`if float(sub['quantity']) * quantity > 0` (else `0.0`). -/
def subUnitCost (d sub_cost : ℚ) : ℚ :=
  if 0 < d then sub_cost / d else 0

/-- The `for sub in sub_assemblies` loop.  `recur child_pid multiplier` is the
recursive `calculate_bom_cost` call; if any recursive call fails to complete,
the whole call fails to complete. -/
def processSubs (recur : Nat → ℚ → Option (ℚ × List LineItem)) (q : ℚ) :
    List SubLine → ℚ × List LineItem → Option (ℚ × List LineItem)
  | [], acc => some acc
  | sub :: rest, acc =>
    match recur sub.product_id (sub.quantity * q) with
    | none => none
    | some (sub_cost, _) =>
      processSubs recur q rest
        (acc.1 + sub_cost,
          acc.2 ++ [⟨subLabel sub, sub.quantity,
            subUnitCost (sub.quantity * q) sub_cost, sub_cost⟩])

/-- `calculate_bom_cost(product_id, quantity, include_dnp)`, fuel-indexed.
`none` means the call does not complete within `fuel` nested recursive
calls; since the source has no cycle guard, a cyclic graph yields `none`
for every fuel. -/
def calculate_bom_cost : Nat → DB → Nat → ℚ → Bool → Option (ℚ × List LineItem)
  | 0, _, _, _, _ => none
  | fuel + 1, db, pid, q, dnp =>
    processSubs (fun cpid m => calculate_bom_cost fuel db cpid m dnp) q
      (directSubAssemblies db pid)
      (processComponents q (directComponents db pid dnp))

/-! ## `get_flattened_bom` -/

/-- One value of the `flattened` dict. -/
structure FlatEntry where
  mfg_part_number : String
  manufacturer : String
  description : String
  category : String
  unit_of_measure : String
  quantity : ℚ
  distributor : Option String
  distributor_part_number : Option String
  unit_cost : Option ℚ
  do_not_populate : Bool
deriving DecidableEq, Repr

/-- The dict key `f-string`: `mfg_part_number + "|" + manufacturer`. -/
def flatKey (c : CompLine) : String :=
  c.mfg_part_number ++ "|" ++ c.manufacturer

/-- The key a flattened entry was stored under. -/
def entryKey (e : FlatEntry) : String :=
  e.mfg_part_number ++ "|" ++ e.manufacturer

/-- `flattened[key]['quantity'] += delta`. -/
def bumpQuantity (dq : ℚ) (kv : String × FlatEntry) : String × FlatEntry :=
  (kv.1, { kv.2 with quantity := kv.2.quantity + dq })

/-- The dict value created on first encounter of a component. -/
def newFlatEntry (qty : ℚ) (comp : CompLine) : FlatEntry :=
  { mfg_part_number := comp.mfg_part_number
    manufacturer := comp.manufacturer
    description := comp.description
    category := comp.category
    unit_of_measure := comp.unit_of_measure
    quantity := comp.quantity * qty
    distributor := comp.distributor
    distributor_part_number := comp.distributor_part_number
    unit_cost := comp.unit_cost
    do_not_populate := comp.do_not_populate }

/-- The body of the `for comp in components` loop of `flatten_recursive`.
The Python dict is modelled as an association list in insertion order:
`key in flattened` updates the entry in place, otherwise a fresh entry is
appended. -/
def addComp (qty : ℚ) (acc : List (String × FlatEntry)) (comp : CompLine) :
    List (String × FlatEntry) :=
  if acc.any (fun kv => kv.1 == flatKey comp) then
    acc.map (fun kv =>
      if kv.1 == flatKey comp then bumpQuantity (comp.quantity * qty) kv else kv)
  else
    acc ++ [(flatKey comp, newFlatEntry qty comp)]

/-- The `for sub in sub_assemblies` loop of `flatten_recursive`. -/
def flattenSubs
    (recur : Nat → ℚ → List (String × FlatEntry) → Option (List (String × FlatEntry))) :
    List SubLine → ℚ → List (String × FlatEntry) → Option (List (String × FlatEntry))
  | [], _, acc => some acc
  | sub :: rest, qty, acc =>
    match recur sub.product_id (sub.quantity * qty) acc with
    | none => none
    | some acc2 => flattenSubs recur rest qty acc2

/-- `flatten_recursive(prod_id, qty)`, threading the closure-mutated
`flattened` dict as an accumulator. -/
def flatten_recursive : Nat → DB → Bool → Nat → ℚ → List (String × FlatEntry) →
    Option (List (String × FlatEntry))
  | 0, _, _, _, _, _ => none
  | fuel + 1, db, dnp, pid, qty, acc =>
    flattenSubs (fun cpid m a => flatten_recursive fuel db dnp cpid m a)
      (directSubAssemblies db pid) qty
      ((directComponents db pid dnp).foldl (addComp qty) acc)

/-- `get_flattened_bom(product_id, quantity, include_dnp)`:
`list(flattened.values())`. -/
def get_flattened_bom (fuel : Nat) (db : DB) (pid : Nat) (quantity : ℚ)
    (include_dnp : Bool) : Option (List FlatEntry) :=
  (flatten_recursive fuel db include_dnp pid quantity []).map (List.map Prod.snd)

/-! ## C1: behaviour on a cyclic graph -/

/-- Product A (id 1) has sub-assembly B (id 2), and B has sub-assembly A:
the minimal cyclic BOM graph. -/
def cycleDB : DB :=
  { products := [⟨1, "A", "assembly A"⟩, ⟨2, "B", "assembly B"⟩]
    components := []
    component_sources := []
    bom_entries := []
    sub_assemblies := [⟨1, 1, 2, 1, ""⟩, ⟨2, 2, 1, 1, ""⟩]
    next_source_id := 1 }

theorem cycle_calc_none :
    ∀ fuel q, calculate_bom_cost fuel cycleDB 1 q false = none ∧
      calculate_bom_cost fuel cycleDB 2 q false = none := by
  intro fuel
  induction fuel with
  | zero => intro q; exact ⟨rfl, rfl⟩
  | succ n ih =>
    intro q
    refine ⟨?_, ?_⟩
    · show processSubs _ q (directSubAssemblies cycleDB 1) _ = none
      rw [show directSubAssemblies cycleDB 1 = [⟨1, "B", "assembly B", 1, "", 2⟩] from rfl]
      simp only [processSubs]
      rw [show (1 : ℚ) * q = 1 * q from rfl, (ih (1 * q)).2]
    · show processSubs _ q (directSubAssemblies cycleDB 2) _ = none
      rw [show directSubAssemblies cycleDB 2 = [⟨2, "A", "assembly A", 1, "", 1⟩] from rfl]
      simp only [processSubs]
      rw [(ih (1 * q)).1]

theorem cycle_flatten_none :
    ∀ fuel q acc, flatten_recursive fuel cycleDB false 1 q acc = none ∧
      flatten_recursive fuel cycleDB false 2 q acc = none := by
  intro fuel
  induction fuel with
  | zero => intro q acc; exact ⟨rfl, rfl⟩
  | succ n ih =>
    intro q acc
    refine ⟨?_, ?_⟩
    · show flattenSubs _ (directSubAssemblies cycleDB 1) q _ = none
      rw [show directSubAssemblies cycleDB 1 = [⟨1, "B", "assembly B", 1, "", 2⟩] from rfl]
      simp only [flattenSubs]
      rw [(ih (1 * q) _).2]
    · show flattenSubs _ (directSubAssemblies cycleDB 2) q _ = none
      rw [show directSubAssemblies cycleDB 2 = [⟨2, "A", "assembly A", 1, "", 1⟩] from rfl]
      simp only [flattenSubs]
      rw [(ih (1 * q) _).1]

/-- C1: the claim says a cyclic graph makes `calculate_bom_cost` and
`get_flattened_bom` terminate with a `CycleDetected` error from any entry
point.  The source has no cycle guard at all: on the two-product cycle
`cycleDB` (product 1 contains product 2 and vice versa), neither function
completes for ANY recursion budget `fuel`, from either entry point — the
code recurses unboundedly and never raises any cycle error. -/
theorem c1_cycle_never_completes (fuel : Nat) :
    calculate_bom_cost fuel cycleDB 1 1 false = none ∧
    calculate_bom_cost fuel cycleDB 2 1 false = none ∧
    get_flattened_bom fuel cycleDB 1 1 false = none ∧
    get_flattened_bom fuel cycleDB 2 1 false = none := by
  refine ⟨(cycle_calc_none fuel 1).1, (cycle_calc_none fuel 1).2, ?_, ?_⟩ <;>
    unfold get_flattened_bom
  · rw [(cycle_flatten_none fuel 1 []).1]; rfl
  · rw [(cycle_flatten_none fuel 1 []).2]; rfl

/-! ## C2: a component with no Source -/

/-- Product 1 has a single BOM line for component 10 (quantity 2), and
component 10 has no rows in `component_sources`. -/
def noSourceDB : DB :=
  { products := [⟨1, "P1", "widget"⟩]
    components := [⟨10, "R1", "ACME", "resistor", "RES", "EA"⟩]
    component_sources := []
    bom_entries := [⟨1, 1, 10, 2, "R1", false⟩]
    sub_assemblies := []
    next_source_id := 1 }

/-- C2 counterexample: the claim says a component line with no Source is
kept in the output flagged as unpriced.  On `noSourceDB` the code returns
total 0 with an EMPTY breakdown: the `if comp['unit_cost']:` truthiness
guard skips the whole block, so the line is silently omitted — no line item
of any kind (and the code has no unpriced flag on line items at all). -/
theorem c2_counterexample :
    calculate_bom_cost 1 noSourceDB 1 1 false = some (0, []) := by decide

/-! ## C3: depth-one totals -/

/-- The exact contribution of one direct component line to the total:
`unit_cost × quantity × multiplier`, reading a missing best source as 0. -/
def compContribution (q : ℚ) (c : CompLine) : ℚ :=
  c.unit_cost.getD 0 * c.quantity * q

theorem foldl_compStep_fst (q : ℚ) :
    ∀ (comps : List CompLine) (acc : ℚ × List LineItem),
      (comps.foldl (compStep q) acc).1 = acc.1 + (comps.map (compContribution q)).sum := by
  intro comps
  induction comps with
  | nil => intro acc; simp
  | cons c rest ih =>
    intro acc
    rw [List.foldl_cons, ih, List.map_cons, List.sum_cons]
    unfold compStep compContribution
    cases hc : c.unit_cost with
    | none => simp [add_assoc]
    | some c0 =>
      by_cases h0 : c0 = 0
      · simp [h0, add_assoc]
      · simp [h0, add_assoc]

theorem processComponents_fst (q : ℚ) (comps : List CompLine) :
    (processComponents q comps).1 = (comps.map (compContribution q)).sum := by
  unfold processComponents
  rw [foldl_compStep_fst]
  simp

/-- Sum of `unitCost × quantity × multiplier` over the direct component
lines of a product. -/
def directTotal (db : DB) (pid : Nat) (q : ℚ) (dnp : Bool) : ℚ :=
  ((directComponents db pid dnp).map (compContribution q)).sum

/-- C3: for a product with no sub-assembly edges, the total returned by
`calculate_bom_cost` is the sum of `unitCost × quantity × multiplier` over
its direct component lines (components without a priced source reading as
0, exactly the priced-components sum); with no BOM entries at all the total
is 0. -/
theorem c3_depth_one_total (db : DB) (pid : Nat) (q : ℚ) (dnp : Bool) (fuel : Nat)
    (hsub : db.sub_assemblies.filter (fun sa => sa.parent_product_id == pid) = []) :
    (calculate_bom_cost (fuel + 1) db pid q dnp).map Prod.fst
        = some (directTotal db pid q dnp) ∧
    (db.bom_entries.filter (fun be => be.product_id == pid) = [] →
      (calculate_bom_cost (fuel + 1) db pid q dnp).map Prod.fst = some 0) := by
  have hsubs : directSubAssemblies db pid = [] := by
    unfold directSubAssemblies joinedSubAssemblies
    rw [hsub]
    rfl
  have hcalc : calculate_bom_cost (fuel + 1) db pid q dnp
      = some (processComponents q (directComponents db pid dnp)) := by
    show processSubs _ q (directSubAssemblies db pid) _ = _
    rw [hsubs]
    rfl
  constructor
  · rw [hcalc, Option.map_some']
    rw [show (processComponents q (directComponents db pid dnp)).1
        = directTotal db pid q dnp from processComponents_fst q _]
  · intro hbe
    have hcomps : directComponents db pid dnp = [] := by
      unfold directComponents joinedComponents
      have h2 : db.bom_entries.filter
          (fun be => be.product_id == pid && dnpKeep dnp be) = [] := by
        rw [List.filter_eq_nil_iff]
        intro be hb
        have h3 := (List.filter_eq_nil_iff.mp hbe) be hb
        simp only [Bool.and_eq_true, not_and]
        intro h4
        exact absurd h4 h3
      rw [h2]
      rfl
    rw [hcalc, hcomps, Option.map_some']
    rfl

/-! ## C5: linearity in the root multiplier -/

theorem compContribution_smul (k q : ℚ) (c : CompLine) :
    compContribution (k * q) c = k * compContribution q c := by
  unfold compContribution
  ring

theorem processComponents_fst_smul (k q : ℚ) (comps : List CompLine) :
    (processComponents (k * q) comps).1 = k * (processComponents q comps).1 := by
  rw [processComponents_fst, processComponents_fst,
    List.map_congr_left (fun c _ => compContribution_smul k q c),
    List.sum_map_mul_left]

theorem processSubs_fst_smul (k : ℚ) (r1 r2 : Nat → ℚ → Option (ℚ × List LineItem))
    (hr : ∀ cpid m, (r2 cpid (k * m)).map Prod.fst = (r1 cpid m).map (fun r => k * r.1))
    (q : ℚ) :
    ∀ (subs : List SubLine) (acc1 acc2 : ℚ × List LineItem), acc2.1 = k * acc1.1 →
      (processSubs r2 (k * q) subs acc2).map Prod.fst
        = (processSubs r1 q subs acc1).map (fun r => k * r.1) := by
  intro subs
  induction subs with
  | nil =>
    intro acc1 acc2 ht
    simp [processSubs, ht]
  | cons sub rest ih =>
    intro acc1 acc2 ht
    simp only [processSubs]
    have hm : sub.quantity * (k * q) = k * (sub.quantity * q) := by ring
    rw [hm]
    have hrs := hr sub.product_id (sub.quantity * q)
    cases h1 : r1 sub.product_id (sub.quantity * q) with
    | none =>
      rw [h1] at hrs
      simp only [Option.map_none'] at hrs
      have h2 : r2 sub.product_id (k * (sub.quantity * q)) = none :=
        Option.map_eq_none'.mp hrs
      rw [h2]
      rfl
    | some v =>
      obtain ⟨ct, bl⟩ := v
      rw [h1] at hrs
      simp only [Option.map_some'] at hrs
      cases h2 : r2 sub.product_id (k * (sub.quantity * q)) with
      | none => rw [h2] at hrs; simp at hrs
      | some w =>
        obtain ⟨ct2, bl2⟩ := w
        rw [h2] at hrs
        simp only [Option.map_some', Option.some.injEq] at hrs
        refine ih _ _ ?_
        show acc2.1 + ct2 = k * (acc1.1 + ct)
        rw [ht, hrs]
        ring

theorem calc_fst_smul :
    ∀ (fuel : Nat) (db : DB) (pid : Nat) (q : ℚ) (dnp : Bool) (k : ℚ),
      (calculate_bom_cost fuel db pid (k * q) dnp).map Prod.fst
        = (calculate_bom_cost fuel db pid q dnp).map (fun r => k * r.1) := by
  intro fuel
  induction fuel with
  | zero => intros; rfl
  | succ n ih =>
    intro db pid q dnp k
    show (processSubs _ (k * q) (directSubAssemblies db pid) _).map Prod.fst
      = (processSubs _ q (directSubAssemblies db pid) _).map _
    exact processSubs_fst_smul k _ _ (fun cpid m => ih db cpid m dnp k) q
      (directSubAssemblies db pid) _ _ (processComponents_fst_smul k q _)

/-- A call with multiplier 0 that completes returns total 0. -/
theorem calc_total_zero (fuel : Nat) (db : DB) (pid : Nat) (dnp : Bool)
    (t : ℚ) (items : List LineItem)
    (h : calculate_bom_cost fuel db pid 0 dnp = some (t, items)) : t = 0 := by
  have hs := calc_fst_smul fuel db pid 1 dnp 0
  rw [show (0 : ℚ) * 1 = 0 from by norm_num, h] at hs
  cases h2 : calculate_bom_cost fuel db pid 1 dnp with
  | none => rw [h2] at hs; simp at hs
  | some v =>
    rw [h2] at hs
    simp only [Option.map_some', Option.some.injEq] at hs
    rw [show t = Prod.fst (t, items) from rfl, hs]
    ring

/-- Scaling of a flattened entry: same key fields, quantity times `k`. -/
def scaleEntry (k : ℚ) (e : FlatEntry) : FlatEntry :=
  { e with quantity := k * e.quantity }

def scaleKV (k : ℚ) (kv : String × FlatEntry) : String × FlatEntry :=
  (kv.1, scaleEntry k kv.2)

theorem bumpQuantity_smul (k dq : ℚ) (kv : String × FlatEntry) :
    bumpQuantity (k * dq) (scaleKV k kv) = scaleKV k (bumpQuantity dq kv) := by
  unfold bumpQuantity scaleKV scaleEntry
  simp only [Prod.mk.injEq, FlatEntry.mk.injEq, true_and, and_true]
  ring

theorem addComp_smul (k qty : ℚ) (acc : List (String × FlatEntry)) (comp : CompLine) :
    addComp (k * qty) (acc.map (scaleKV k)) comp
      = (addComp qty acc comp).map (scaleKV k) := by
  unfold addComp
  rw [List.any_map]
  rw [show ((fun kv => kv.1 == flatKey comp) ∘ scaleKV k)
      = (fun kv : String × FlatEntry => kv.1 == flatKey comp) from rfl]
  by_cases h : (acc.any fun kv => kv.1 == flatKey comp) = true
  · rw [if_pos h, if_pos h, List.map_map, List.map_map]
    apply List.map_congr_left
    intro kv _
    simp only [Function.comp_apply]
    by_cases hk : (kv.1 == flatKey comp) = true
    · rw [if_pos (show ((scaleKV k kv).1 == flatKey comp) = true from hk), if_pos hk]
      rw [show comp.quantity * (k * qty) = k * (comp.quantity * qty) from by ring]
      exact bumpQuantity_smul k (comp.quantity * qty) kv
    · rw [if_neg (show ¬((scaleKV k kv).1 == flatKey comp) = true from hk), if_neg hk]
  · rw [if_neg h, if_neg h, List.map_append]
    congr 1
    simp only [List.map_cons, List.map_nil, scaleKV, scaleEntry, newFlatEntry,
      List.cons.injEq, and_true, Prod.mk.injEq, FlatEntry.mk.injEq, true_and]
    ring

theorem foldl_addComp_smul (k qty : ℚ) :
    ∀ (comps : List CompLine) (acc : List (String × FlatEntry)),
      comps.foldl (addComp (k * qty)) (acc.map (scaleKV k))
        = (comps.foldl (addComp qty) acc).map (scaleKV k) := by
  intro comps
  induction comps with
  | nil => intro acc; rfl
  | cons c rest ih =>
    intro acc
    rw [List.foldl_cons, List.foldl_cons, addComp_smul, ih]

theorem flattenSubs_smul (k : ℚ)
    (r1 r2 : Nat → ℚ → List (String × FlatEntry) → Option (List (String × FlatEntry)))
    (hr : ∀ cpid m acc, r2 cpid (k * m) (acc.map (scaleKV k))
      = (r1 cpid m acc).map (List.map (scaleKV k))) :
    ∀ (subs : List SubLine) (qty : ℚ) (acc : List (String × FlatEntry)),
      flattenSubs r2 subs (k * qty) (acc.map (scaleKV k))
        = (flattenSubs r1 subs qty acc).map (List.map (scaleKV k)) := by
  intro subs
  induction subs with
  | nil => intro qty acc; rfl
  | cons sub rest ih =>
    intro qty acc
    simp only [flattenSubs]
    have hm : sub.quantity * (k * qty) = k * (sub.quantity * qty) := by ring
    rw [hm, hr sub.product_id (sub.quantity * qty) acc]
    cases h1 : r1 sub.product_id (sub.quantity * qty) acc with
    | none => rfl
    | some acc1 =>
      simp only [Option.map_some']
      exact ih qty acc1

theorem flatten_recursive_smul :
    ∀ (fuel : Nat) (db : DB) (dnp : Bool) (pid : Nat) (qty : ℚ)
      (acc : List (String × FlatEntry)) (k : ℚ),
      flatten_recursive fuel db dnp pid (k * qty) (acc.map (scaleKV k))
        = (flatten_recursive fuel db dnp pid qty acc).map (List.map (scaleKV k)) := by
  intro fuel
  induction fuel with
  | zero => intros; rfl
  | succ n ih =>
    intro db dnp pid qty acc k
    show flattenSubs _ (directSubAssemblies db pid) (k * qty) _
      = (flattenSubs _ (directSubAssemblies db pid) qty _).map _
    rw [foldl_addComp_smul]
    exact flattenSubs_smul k _ _ (fun cpid m a => ih db dnp cpid m a k)
      (directSubAssemblies db pid) qty _

/-- C5: linearity in the root multiplier.  Replacing the multiplier `q` by
`k * q` scales the cost total by exactly `k`, and maps the flattened BOM
entrywise through `scaleEntry k` — every entry keeps its
(part number, manufacturer) key and all descriptive fields, and its
`totalQuantity` is multiplied by exactly `k`.  Holds for every database
(on a cyclic graph both sides are `none` for every fuel). -/
theorem c5_linearity (fuel : Nat) (db : DB) (pid : Nat) (q : ℚ) (dnp : Bool) (k : ℚ) :
    (calculate_bom_cost fuel db pid (k * q) dnp).map Prod.fst
      = (calculate_bom_cost fuel db pid q dnp).map (fun r => k * r.1) ∧
    get_flattened_bom fuel db pid (k * q) dnp
      = (get_flattened_bom fuel db pid q dnp).map (List.map (scaleEntry k)) := by
  refine ⟨calc_fst_smul fuel db pid q dnp k, ?_⟩
  unfold get_flattened_bom
  have hf := flatten_recursive_smul fuel db dnp pid q [] k
  rw [show (([] : List (String × FlatEntry)).map (scaleKV k)) = [] from rfl] at hf
  rw [hf]
  cases flatten_recursive fuel db dnp pid q [] with
  | none => rfl
  | some acc =>
    simp only [Option.map_some', Option.some.injEq, List.map_map]
    rfl

/-! ## C7: zero-quantity sub-assembly edges -/

theorem processSubs_item_mem (r : Nat → ℚ → Option (ℚ × List LineItem)) (q : ℚ) :
    ∀ (subs : List SubLine) (acc : ℚ × List LineItem) (t : ℚ) (items : List LineItem),
      processSubs r q subs acc = some (t, items) →
      (∀ it ∈ acc.2, it ∈ items) ∧
      ∀ sub ∈ subs, ∃ ct bl, r sub.product_id (sub.quantity * q) = some (ct, bl) ∧
        (⟨subLabel sub, sub.quantity, subUnitCost (sub.quantity * q) ct, ct⟩ : LineItem)
          ∈ items := by
  intro subs
  induction subs with
  | nil =>
    intro acc t items h
    simp only [processSubs, Option.some.injEq] at h
    refine ⟨fun it hit => ?_, fun sub hs => absurd hs (List.not_mem_nil _)⟩
    rw [h] at hit
    exact hit
  | cons sub rest ih =>
    intro acc t items h
    simp only [processSubs] at h
    cases hr : r sub.product_id (sub.quantity * q) with
    | none => rw [hr] at h; exact absurd h (by simp)
    | some v =>
      obtain ⟨ct, bl⟩ := v
      rw [hr] at h
      obtain ⟨hmono, hall⟩ := ih _ t items h
      refine ⟨fun it hit => hmono it (List.mem_append_left _ hit), fun s hs => ?_⟩
      rcases List.mem_cons.mp hs with rfl | hs2
      · exact ⟨ct, bl, hr,
          hmono _ (List.mem_append_right _ (List.mem_singleton_self _))⟩
      · exact hall s hs2

/-- C7: a sub-assembly edge whose effective quantity
`entryQuantity × accumulatedMultiplier` is not positive (in particular an
edge of quantity 0, quantities being non-negative) still yields a rollup
line item in the parent breakdown with `total = 0` and `unit_cost = 0`:
the guard `if float(sub['quantity']) * quantity > 0` takes its `else 0.0`
branch, so no division by zero is attempted and the stored values are the
exact rationals 0. -/
theorem c7_zero_quantity_rollup (fuel : Nat) (db : DB) (pid : Nat) (q : ℚ) (dnp : Bool)
    (sub : SubLine) (t : ℚ) (items : List LineItem)
    (hmem : sub ∈ directSubAssemblies db pid)
    (hq : 0 ≤ q) (hsq : 0 ≤ sub.quantity)
    (hnp : ¬ 0 < sub.quantity * q)
    (hcalc : calculate_bom_cost fuel db pid q dnp = some (t, items)) :
    (⟨subLabel sub, sub.quantity, 0, 0⟩ : LineItem) ∈ items := by
  cases fuel with
  | zero => exact absurd hcalc (by simp [calculate_bom_cost])
  | succ n =>
    obtain ⟨ct, bl, hr, hit⟩ :=
      (processSubs_item_mem (fun cpid m => calculate_bom_cost n db cpid m dnp) q
        (directSubAssemblies db pid) _ t items hcalc).2 sub hmem
    have hzero : sub.quantity * q = 0 := le_antisymm (not_lt.mp hnp) (mul_nonneg hsq hq)
    rw [hzero] at hr
    have hct : ct = 0 := calc_total_zero n db sub.product_id dnp ct bl hr
    have huc : subUnitCost (sub.quantity * q) ct = 0 := by
      unfold subUnitCost
      rw [hzero]
      norm_num
    rw [huc, hct] at hit
    exact hit

/-- Concrete input for C7: product 1 has sub-assembly 2 with edge quantity
0; product 2 contains component 10 (priced at 5) with quantity 3. -/
def zeroQtyDB : DB :=
  { products := [⟨1, "P", "parent"⟩, ⟨2, "S", "sub"⟩]
    components := [⟨10, "R1", "ACME", "resistor", "RES", "EA"⟩]
    component_sources := [⟨1, 10, "DigiKey", "D1", some 5, 1, none, 0⟩]
    bom_entries := [⟨1, 2, 10, 3, "", false⟩]
    sub_assemblies := [⟨1, 1, 2, 0, ""⟩]
    next_source_id := 2 }

/-- C7 witness: on `zeroQtyDB` the rollup line for the zero-quantity
sub-assembly appears with total 0 and unit cost 0. -/
theorem c7_witness :
    (⟨subLabel ⟨1, "S", "sub", 0, "", 2⟩, 0, 0, 0⟩ : LineItem)
      ∈ [(⟨"[SUB-ASSEMBLY] S - sub", 0, 0, 0⟩ : LineItem)] :=
  c7_zero_quantity_rollup 2 zeroQtyDB 1 1 false ⟨1, "S", "sub", 0, "", 2⟩ 0
    [⟨"[SUB-ASSEMBLY] S - sub", 0, 0, 0⟩] (by decide) (by norm_num) (by norm_num)
    (by norm_num)
    (by
      norm_num [calculate_bom_cost, processSubs, processComponents, compStep,
        directComponents, joinedComponents, directSubAssemblies, joinedSubAssemblies,
        mkCompLine, bestSource, bestUnitCost, sourcesFor, dnpKeep, subLabel, compLabel,
        subUnitCost, zeroQtyDB, List.insertionSort, List.orderedInsert]
      all_goals decide)

/-! ## C3 witness input -/

/-- Concrete depth-one input: product 1 has one component (best cost 5/2,
quantity 4) and no sub-assemblies. -/
def depthOneDB : DB :=
  { products := [⟨1, "W", "widget"⟩]
    components := [⟨10, "R1", "ACME", "resistor", "RES", "EA"⟩]
    component_sources := [⟨1, 10, "DigiKey", "D1", some (5 / 2), 1, none, 0⟩]
    bom_entries := [⟨1, 1, 10, 4, "R1", false⟩]
    sub_assemblies := []
    next_source_id := 2 }

/-- C3 witness: at multiplier 3 the depth-one total is
`5/2 × 4 × 3 = 30`. -/
theorem c3_witness :
    (calculate_bom_cost 1 depthOneDB 1 3 false).map Prod.fst
      = some (directTotal depthOneDB 1 3 false) ∧
    directTotal depthOneDB 1 3 false = 30 :=
  ⟨(c3_depth_one_total depthOneDB 1 3 false 0 (by decide)).1, by
    norm_num [directTotal, directComponents, joinedComponents, mkCompLine, bestSource,
      bestUnitCost, sourcesFor, dnpKeep, depthOneDB, compContribution,
      List.insertionSort, List.orderedInsert]⟩

/-! ## C8: `add_component_source` -/

/-- The `UPDATE component_sources SET ... WHERE source_id = ?` row update. -/
def updateSourceRow (dpn : String) (cost : Option ℚ) (moq : Nat) (lead : Option Nat)
    (now : Nat) (s : SourceRow) : SourceRow :=
  { s with
    distributor_part_number := dpn
    unit_cost := cost
    minimum_order_qty := moq
    lead_time_days := lead
    last_updated := now }

/-- `WHERE component_id = ? AND distributor = ?`. -/
def srcMatches (cid : Nat) (dist : String) (s : SourceRow) : Bool :=
  s.component_id == cid && s.distributor == dist

/-- `add_component_source(component_id, distributor, distributor_part_number,
unit_cost, minimum_order_qty, lead_time_days)`: if a source for the
`(component, distributor)` pair exists it is updated in place and its id
returned, otherwise a fresh row is inserted and its new id returned.
`now` stands for `datetime.now().isoformat()`. -/
def add_component_source (db : DB) (now : Nat) (cid : Nat) (dist : String)
    (dpn : String) (cost : Option ℚ) (moq : Nat) (lead : Option Nat) : DB × Nat :=
  match db.component_sources.find? (srcMatches cid dist) with
  | some existing =>
    ({ db with
        component_sources := db.component_sources.map
          (fun s => if s.source_id == existing.source_id
            then updateSourceRow dpn cost moq lead now s else s) },
      existing.source_id)
  | none =>
    ({ db with
        component_sources := db.component_sources
          ++ [⟨db.next_source_id, cid, dist, dpn, cost, moq, lead, now⟩],
        next_source_id := db.next_source_id + 1 },
      db.next_source_id)

/-- The data invariant of the `component_sources` table: at most one row per
`(component, distributor)` pair, distinct `source_id`s, ids below the
autoincrement counter. -/
def SourcesInvariant (db : DB) : Prop :=
  db.component_sources.Pairwise
    (fun a b => ¬(a.component_id = b.component_id ∧ a.distributor = b.distributor)) ∧
  (db.component_sources.map (fun s => s.source_id)).Nodup ∧
  ∀ s ∈ db.component_sources, s.source_id < db.next_source_id

instance (db : DB) : Decidable (SourcesInvariant db) := by
  unfold SourcesInvariant
  infer_instance

theorem countP_matches_le_one (cid : Nat) (dist : String) :
    ∀ l : List SourceRow,
      l.Pairwise (fun a b =>
        ¬(a.component_id = b.component_id ∧ a.distributor = b.distributor)) →
      l.countP (srcMatches cid dist) ≤ 1 := by
  intro l
  induction l with
  | nil => intro _; simp
  | cons a t ih =>
    intro hp
    obtain ⟨ha, ht⟩ := List.pairwise_cons.mp hp
    by_cases hm : srcMatches cid dist a = true
    · rw [List.countP_cons_of_pos _ _ hm]
      have hz : t.countP (srcMatches cid dist) = 0 := by
        rw [List.countP_eq_zero]
        intro b hb hmb
        obtain ⟨ha1, ha2⟩ := Bool.and_eq_true_iff.mp hm
        obtain ⟨hb1, hb2⟩ := Bool.and_eq_true_iff.mp hmb
        exact ha b hb ⟨(eq_of_beq ha1).trans (eq_of_beq hb1).symm,
          (eq_of_beq ha2).trans (eq_of_beq hb2).symm⟩
      omega
    · rw [List.countP_cons_of_neg _ _ hm]
      exact ih ht

/-- C8: `add_component_source` preserves the at-most-one-source-per-
`(component, distributor)` invariant; when a source for the pair already
exists, the call returns the existing row's id, keeps the table length
unchanged (no second row is created), leaves exactly one row for the pair,
and that row carries the newly supplied values (update in place). -/
theorem c8_source_update_in_place (db : DB) (now cid : Nat) (dist dpn : String)
    (cost : Option ℚ) (moq : Nat) (lead : Option Nat)
    (hinv : SourcesInvariant db) :
    SourcesInvariant (add_component_source db now cid dist dpn cost moq lead).1 ∧
    ∀ ex, db.component_sources.find? (srcMatches cid dist) = some ex →
      (add_component_source db now cid dist dpn cost moq lead).2 = ex.source_id ∧
      (add_component_source db now cid dist dpn cost moq lead).1.component_sources.length
        = db.component_sources.length ∧
      (add_component_source db now cid dist dpn cost moq lead).1.component_sources.countP
        (srcMatches cid dist) = 1 ∧
      ∃ s ∈ (add_component_source db now cid dist dpn cost moq lead).1.component_sources,
        s.source_id = ex.source_id ∧ s.component_id = cid ∧ s.distributor = dist ∧
        s.distributor_part_number = dpn ∧ s.unit_cost = cost ∧
        s.minimum_order_qty = moq ∧ s.lead_time_days = lead := by
  obtain ⟨hpair, hids, hbound⟩ := hinv
  unfold add_component_source
  cases hfind : db.component_sources.find? (srcMatches cid dist) with
  | none =>
    have hno := List.find?_eq_none.mp hfind
    refine ⟨⟨?_, ?_, ?_⟩, fun ex hex => absurd hex (by simp)⟩
    · rw [List.pairwise_append]
      refine ⟨hpair, List.pairwise_singleton _ _, fun a ha b hb => ?_⟩
      rw [List.mem_singleton.mp hb]
      intro ⟨h1, h2⟩
      exact hno a ha (by
        unfold srcMatches
        rw [Bool.and_eq_true_iff]
        exact ⟨Nat.beq_eq_true_eq _ _ ▸ h1, beq_iff_eq.mpr h2⟩)
    · rw [List.map_append, List.nodup_append]
      refine ⟨hids, List.nodup_singleton _, fun x hx => ?_⟩
      obtain ⟨s, hs, rfl⟩ := List.mem_map.mp hx
      simp only [List.map_cons, List.map_nil, List.mem_singleton]
      intro hcontra
      exact absurd (hcontra ▸ hbound s hs) (lt_irrefl _)
    · intro s hs
      rcases List.mem_append.mp hs with h | h
      · exact Nat.lt_succ_of_lt (hbound s h)
      · rw [List.mem_singleton.mp h]
        exact Nat.lt_succ_self _
  | some ex0 =>
    have hex0mem : ex0 ∈ db.component_sources := List.mem_of_find?_eq_some hfind
    have hex0match : srcMatches cid dist ex0 = true := List.find?_some hfind
    set f : SourceRow → SourceRow := fun s =>
      if s.source_id == ex0.source_id then updateSourceRow dpn cost moq lead now s else s
      with hf
    have hfid : ∀ s, (f s).source_id = s.source_id := by
      intro s
      rw [hf]
      by_cases h : (s.source_id == ex0.source_id) = true
      · simp only [if_pos h]; rfl
      · simp only [if_neg h]
    have hfcid : ∀ s, (f s).component_id = s.component_id := by
      intro s
      rw [hf]
      by_cases h : (s.source_id == ex0.source_id) = true
      · simp only [if_pos h]; rfl
      · simp only [if_neg h]
    have hfdist : ∀ s, (f s).distributor = s.distributor := by
      intro s
      rw [hf]
      by_cases h : (s.source_id == ex0.source_id) = true
      · simp only [if_pos h]; rfl
      · simp only [if_neg h]
    have hfmatch : ∀ s, srcMatches cid dist (f s) = srcMatches cid dist s := by
      intro s
      unfold srcMatches
      rw [hfcid, hfdist]
    refine ⟨⟨?_, ?_, ?_⟩, fun ex hex => ?_⟩
    · rw [List.pairwise_map]
      exact hpair.imp (fun h => by
        rw [hfcid, hfcid, hfdist, hfdist]
        exact h)
    · rw [List.map_map]
      rw [show ((fun s : SourceRow => s.source_id) ∘ f)
          = (fun s : SourceRow => s.source_id) from funext hfid]
      exact hids
    · intro s hs
      obtain ⟨a, ha, rfl⟩ := List.mem_map.mp hs
      rw [hfid]
      exact hbound a ha
    · injection hex with hex
      subst hex
      refine ⟨rfl, List.length_map _ _, ?_, ?_⟩
      · rw [List.countP_map]
        rw [show (srcMatches cid dist ∘ f) = srcMatches cid dist from funext hfmatch]
        have hle := countP_matches_le_one cid dist db.component_sources hpair
        have hpos : 0 < db.component_sources.countP (srcMatches cid dist) :=
          List.countP_pos_iff.mpr ⟨ex0, hex0mem, hex0match⟩
        omega
      · refine ⟨f ex0, List.mem_map_of_mem f hex0mem, ?_⟩
        rw [hf]
        simp only [beq_self_eq_true, if_true]
        obtain ⟨h1, h2⟩ := Bool.and_eq_true_iff.mp hex0match
        exact ⟨rfl, eq_of_beq h1, eq_of_beq h2, rfl, rfl, rfl, rfl⟩

/-- Concrete input for C8: component 10 already has a DigiKey source
(id 1, cost 5). -/
def srcDB : DB :=
  { products := []
    components := [⟨10, "R1", "ACME", "resistor", "RES", "EA"⟩]
    component_sources := [⟨1, 10, "DigiKey", "OLD", some 5, 1, none, 0⟩]
    bom_entries := []
    sub_assemblies := []
    next_source_id := 2 }

/-- C8 witness: re-adding a DigiKey source for component 10 preserves the
invariant and returns the existing id 1. -/
theorem c8_witness :
    SourcesInvariant (add_component_source srcDB 7 10 "DigiKey" "NEW" (some 4) 2
      (some 10)).1 ∧
    (add_component_source srcDB 7 10 "DigiKey" "NEW" (some 4) 2 (some 10)).2 = 1 := by
  have h := c8_source_update_in_place srcDB 7 10 "DigiKey" "NEW" (some 4) 2 (some 10)
    (by decide)
  exact ⟨h.1, (h.2 ⟨1, 10, "DigiKey", "OLD", some 5, 1, none, 0⟩ (by decide)).1⟩

/-! ## C9: the resolver is read-only

State-threading embedding of the two resolver methods.  Every database
access of `calculate_bom_cost` and `get_flattened_bom` goes through
`get_product_bom`, whose body executes only `SELECT` statements; the
stateful versions below thread the database through every access and
recursive call, so a change to any table anywhere in the traversal would
surface in the returned state. -/

/-- Stateful `get_product_bom`: two `SELECT ... fetchall()` reads; the
state is returned as the reads leave it. -/
def get_product_bomS (db : DB) (pid : Nat) (include_dnp : Bool) :
    (List CompLine × List SubLine) × DB :=
  (get_product_bom db pid include_dnp, db)

def processSubsS (recur : Nat → ℚ → DB → Option ((ℚ × List LineItem) × DB)) (q : ℚ) :
    List SubLine → ℚ × List LineItem → DB → Option ((ℚ × List LineItem) × DB)
  | [], acc, db => some (acc, db)
  | sub :: rest, acc, db =>
    match recur sub.product_id (sub.quantity * q) db with
    | none => none
    | some ((sub_cost, _), db2) =>
      processSubsS recur q rest
        (acc.1 + sub_cost,
          acc.2 ++ [⟨subLabel sub, sub.quantity,
            subUnitCost (sub.quantity * q) sub_cost, sub_cost⟩]) db2

/-- Stateful `calculate_bom_cost`. -/
def calculate_bom_costS : Nat → DB → Nat → ℚ → Bool → Option ((ℚ × List LineItem) × DB)
  | 0, _, _, _, _ => none
  | fuel + 1, db, pid, q, dnp =>
    match get_product_bomS db pid dnp with
    | ((comps, subs), db1) =>
      processSubsS (fun cpid m d => calculate_bom_costS fuel d cpid m dnp) q subs
        (processComponents q comps) db1

def flattenSubsS
    (recur : Nat → ℚ → List (String × FlatEntry) → DB →
      Option (List (String × FlatEntry) × DB)) :
    List SubLine → ℚ → List (String × FlatEntry) → DB →
      Option (List (String × FlatEntry) × DB)
  | [], _, acc, db => some (acc, db)
  | sub :: rest, qty, acc, db =>
    match recur sub.product_id (sub.quantity * qty) acc db with
    | none => none
    | some (acc2, db2) => flattenSubsS recur rest qty acc2 db2

/-- Stateful `flatten_recursive`. -/
def flatten_recursiveS : Nat → DB → Bool → Nat → ℚ → List (String × FlatEntry) →
    Option (List (String × FlatEntry) × DB)
  | 0, _, _, _, _, _ => none
  | fuel + 1, db, dnp, pid, qty, acc =>
    match get_product_bomS db pid dnp with
    | ((comps, subs), db1) =>
      flattenSubsS (fun cpid m a d => flatten_recursiveS fuel d dnp cpid m a) subs qty
        (comps.foldl (addComp qty) acc) db1

/-- Stateful `get_flattened_bom`. -/
def get_flattened_bomS (fuel : Nat) (db : DB) (pid : Nat) (quantity : ℚ)
    (include_dnp : Bool) : Option (List FlatEntry × DB) :=
  (flatten_recursiveS fuel db include_dnp pid quantity []).map
    (fun r => (r.1.map Prod.snd, r.2))

theorem processSubsS_state (r : Nat → ℚ → DB → Option ((ℚ × List LineItem) × DB))
    (q : ℚ) (hr : ∀ cpid m d res d2, r cpid m d = some (res, d2) → d2 = d) :
    ∀ (subs : List SubLine) (acc : ℚ × List LineItem) (db : DB) res db2,
      processSubsS r q subs acc db = some (res, db2) → db2 = db := by
  intro subs
  induction subs with
  | nil =>
    intro acc db res db2 h
    simp only [processSubsS, Option.some.injEq] at h
    exact (congrArg Prod.snd h.symm : _)
  | cons sub rest ih =>
    intro acc db res db2 h
    simp only [processSubsS] at h
    cases hrec : r sub.product_id (sub.quantity * q) db with
    | none => rw [hrec] at h; exact absurd h (by simp)
    | some v =>
      obtain ⟨⟨ct, bl⟩, d1⟩ := v
      rw [hrec] at h
      rw [ih _ d1 res db2 h]
      exact hr _ _ _ _ _ hrec

theorem calcS_state :
    ∀ (fuel : Nat) (db : DB) (pid : Nat) (q : ℚ) (dnp : Bool) res db2,
      calculate_bom_costS fuel db pid q dnp = some (res, db2) → db2 = db := by
  intro fuel
  induction fuel with
  | zero => intro db pid q dnp res db2 h; exact absurd h (by simp [calculate_bom_costS])
  | succ n ih =>
    intro db pid q dnp res db2 h
    exact processSubsS_state _ q (fun cpid m d r2 d2 h2 => ih d cpid m dnp r2 d2 h2)
      (directSubAssemblies db pid) _ db res db2 h

theorem flattenSubsS_state
    (r : Nat → ℚ → List (String × FlatEntry) → DB →
      Option (List (String × FlatEntry) × DB))
    (hr : ∀ cpid m a d res d2, r cpid m a d = some (res, d2) → d2 = d) :
    ∀ (subs : List SubLine) (qty : ℚ) (acc : List (String × FlatEntry)) (db : DB) res db2,
      flattenSubsS r subs qty acc db = some (res, db2) → db2 = db := by
  intro subs
  induction subs with
  | nil =>
    intro qty acc db res db2 h
    simp only [flattenSubsS, Option.some.injEq] at h
    exact (congrArg Prod.snd h.symm : _)
  | cons sub rest ih =>
    intro qty acc db res db2 h
    simp only [flattenSubsS] at h
    cases hrec : r sub.product_id (sub.quantity * qty) acc db with
    | none => rw [hrec] at h; exact absurd h (by simp)
    | some v =>
      obtain ⟨acc2, d1⟩ := v
      rw [hrec] at h
      rw [ih qty acc2 d1 res db2 h]
      exact hr _ _ _ _ _ _ hrec

theorem flatS_state :
    ∀ (fuel : Nat) (db : DB) (dnp : Bool) (pid : Nat) (qty : ℚ)
      (acc : List (String × FlatEntry)) res db2,
      flatten_recursiveS fuel db dnp pid qty acc = some (res, db2) → db2 = db := by
  intro fuel
  induction fuel with
  | zero =>
    intro db dnp pid qty acc res db2 h
    exact absurd h (by simp [flatten_recursiveS])
  | succ n ih =>
    intro db dnp pid qty acc res db2 h
    exact flattenSubsS_state _ (fun cpid m a d r2 d2 h2 => ih d dnp cpid m a r2 d2 h2)
      (directSubAssemblies db pid) qty _ db res db2 h

/-- C9: `calculate_bom_cost` and `get_flattened_bom` are read-only.  In the
state-threading embedding (where every `SELECT` of `get_product_bom` and
every recursive call passes the database along), whenever a call completes,
every table of the returned database state — products, components,
component_sources, bom_entries, sub_assemblies — is exactly the input
table; the outputs are ephemeral values only. -/
theorem c9_resolver_read_only (fuel : Nat) (db : DB) (pid : Nat) (q : ℚ) (dnp : Bool) :
    (∀ res db2, calculate_bom_costS fuel db pid q dnp = some (res, db2) →
      db2.products = db.products ∧ db2.components = db.components ∧
      db2.component_sources = db.component_sources ∧
      db2.bom_entries = db.bom_entries ∧ db2.sub_assemblies = db.sub_assemblies) ∧
    (∀ res db2, get_flattened_bomS fuel db pid q dnp = some (res, db2) →
      db2.products = db.products ∧ db2.components = db.components ∧
      db2.component_sources = db.component_sources ∧
      db2.bom_entries = db.bom_entries ∧ db2.sub_assemblies = db.sub_assemblies) := by
  constructor
  · intro res db2 h
    rw [calcS_state fuel db pid q dnp res db2 h]
    exact ⟨rfl, rfl, rfl, rfl, rfl⟩
  · intro res db2 h
    unfold get_flattened_bomS at h
    cases hf : flatten_recursiveS fuel db dnp pid q [] with
    | none => rw [hf] at h; exact absurd h (by simp)
    | some v =>
      rw [hf] at h
      simp only [Option.map_some', Option.some.injEq] at h
      have hdb : v.2 = db := flatS_state fuel db dnp pid q [] v.1 v.2 (by rw [hf])
      have hdb2 : db2 = v.2 := (congrArg Prod.snd h.symm : _)
      rw [hdb2, hdb]
      exact ⟨rfl, rfl, rfl, rfl, rfl⟩

/-- C9 witness: a completed call on `noSourceDB` returns the database
unchanged. -/
theorem c9_witness :
    noSourceDB.products = noSourceDB.products ∧
    noSourceDB.components = noSourceDB.components ∧
    noSourceDB.component_sources = noSourceDB.component_sources ∧
    noSourceDB.bom_entries = noSourceDB.bom_entries ∧
    noSourceDB.sub_assemblies = noSourceDB.sub_assemblies :=
  (c9_resolver_read_only 1 noSourceDB 1 1 false).1 (0, []) noSourceDB (by decide)

/-! ## Deleting a BOM entry, and stability of insertion sort under filter

`delete_bom_entry` is the source's own deletion method; the lemmas below
show that removing a BOM entry whose component has no truthy best cost
leaves `calculate_bom_cost` unchanged — such a line is skipped entirely by
the `if comp['unit_cost']:` guard. -/

/-- `delete_bom_entry(entry_id)`: `DELETE FROM bom_entries WHERE
entry_id = ?`, returning `rowcount > 0`. -/
def delete_bom_entry (db : DB) (eid : Nat) : DB × Bool :=
  let remaining := db.bom_entries.filter (fun be => be.entry_id != eid)
  ({ db with bom_entries := remaining },
    decide (remaining.length < db.bom_entries.length))

theorem orderedInsert_of_forall_le (r : α → α → Prop) [DecidableRel r] (a : α)
    (l : List α) (h : ∀ x ∈ l, r a x) : l.orderedInsert r a = a :: l := by
  cases l with
  | nil => rfl
  | cons b t => exact List.orderedInsert_of_le r t (h b (List.mem_cons_self b t))

theorem filter_orderedInsert_neg (r : α → α → Prop) [DecidableRel r] (p : α → Bool)
    (a : α) (hp : p a = false) :
    ∀ l : List α, (l.orderedInsert r a).filter p = l.filter p := by
  intro l
  induction l with
  | nil => simp [List.orderedInsert, hp]
  | cons b t ih =>
    simp only [List.orderedInsert]
    by_cases h : r a b
    · rw [if_pos h, List.filter_cons_of_neg (by simp [hp])]
    · rw [if_neg h]
      by_cases hpb : p b = true
      · rw [List.filter_cons_of_pos hpb, List.filter_cons_of_pos hpb, ih]
      · rw [List.filter_cons_of_neg (by simp at hpb ⊢; exact hpb),
          List.filter_cons_of_neg (by simp at hpb ⊢; exact hpb), ih]

theorem filter_orderedInsert_pos (r : α → α → Prop) [DecidableRel r] [IsTrans α r]
    (p : α → Bool) (a : α) (hp : p a = true) :
    ∀ l : List α, List.Sorted r l →
      (l.orderedInsert r a).filter p = (l.filter p).orderedInsert r a := by
  intro l
  induction l with
  | nil => simp [List.orderedInsert, hp]
  | cons b t ih =>
    intro hs
    obtain ⟨hb, ht⟩ := List.sorted_cons.mp hs
    simp only [List.orderedInsert]
    by_cases h : r a b
    · rw [if_pos h, List.filter_cons_of_pos hp]
      have hall : ∀ x ∈ (b :: t).filter p, r a x := by
        intro x hx
        rcases List.mem_cons.mp (List.mem_of_mem_filter hx) with rfl | hxt
        · exact h
        · exact IsTrans.trans _ _ _ h (hb x hxt)
      rw [orderedInsert_of_forall_le r a _ hall]
    · rw [if_neg h]
      by_cases hpb : p b = true
      · rw [List.filter_cons_of_pos hpb, List.filter_cons_of_pos hpb, ih ht]
        simp only [List.orderedInsert]
        rw [if_neg h]
      · rw [List.filter_cons_of_neg (by simp at hpb ⊢; exact hpb),
          List.filter_cons_of_neg (by simp at hpb ⊢; exact hpb), ih ht]

theorem filter_insertionSort (r : α → α → Prop) [DecidableRel r] [IsTotal α r]
    [IsTrans α r] (p : α → Bool) :
    ∀ l : List α, (List.insertionSort r l).filter p = List.insertionSort r (l.filter p) := by
  intro l
  induction l with
  | nil => rfl
  | cons a t ih =>
    show ((List.insertionSort r t).orderedInsert r a).filter p = _
    by_cases hp : p a = true
    · rw [filter_orderedInsert_pos r p a hp _ (List.sorted_insertionSort r t), ih,
        List.filter_cons_of_pos hp]
      rfl
    · rw [filter_orderedInsert_neg r p a (by simpa using hp), ih,
        List.filter_cons_of_neg (by simp [hp])]

theorem filter_swap (P Q : α → Bool) (l : List α) :
    (l.filter Q).filter P = (l.filter P).filter Q := by
  rw [List.filter_filter, List.filter_filter]
  exact List.filter_congr (fun a _ => Bool.and_comm _ _)

theorem filterMap_filter_exchange (F : α → Option β) (q : α → Bool) (p : β → Bool)
    (h : ∀ a b, F a = some b → q a = p b) :
    ∀ l : List α, (l.filter q).filterMap F = (l.filterMap F).filter p := by
  intro l
  induction l with
  | nil => rfl
  | cons a t ih =>
    cases hF : F a with
    | none =>
      by_cases hq : q a = true
      · rw [List.filter_cons_of_pos hq, List.filterMap_cons, hF, List.filterMap_cons, hF]
        exact ih
      · rw [List.filter_cons_of_neg (by simpa using hq), List.filterMap_cons, hF]
        exact ih
    | some b =>
      have hqp := h a b hF
      by_cases hq : q a = true
      · rw [List.filter_cons_of_pos hq, List.filterMap_cons, hF, List.filterMap_cons, hF,
          List.filter_cons_of_pos (hqp ▸ hq), ih]
      · rw [List.filter_cons_of_neg (by simpa using hq), List.filterMap_cons, hF,
          List.filter_cons_of_neg (by rw [← hqp]; simpa using hq), ih]

theorem directComponents_delete (db : DB) (eid pid : Nat) (dnp : Bool) :
    directComponents (delete_bom_entry db eid).1 pid dnp
      = (directComponents db pid dnp).filter (fun l => l.entry_id != eid) := by
  have hcompeq : (delete_bom_entry db eid).1.components = db.components := rfl
  have hmk : mkCompLine (delete_bom_entry db eid).1 = mkCompLine db := rfl
  have hbe : (delete_bom_entry db eid).1.bom_entries
      = db.bom_entries.filter (fun be => be.entry_id != eid) := rfl
  unfold directComponents
  rw [filter_insertionSort]
  congr 1
  unfold joinedComponents
  rw [hcompeq, hmk, hbe, filter_swap]
  exact filterMap_filter_exchange _ _ _
    (fun be l hFl => by
      cases hfind : db.components.find? (fun c => c.component_id == be.component_id) with
      | none => rw [hfind] at hFl; exact absurd hFl (by simp)
      | some c =>
        rw [hfind] at hFl
        simp only [Option.map_some', Option.some.injEq] at hFl
        rw [← hFl]
        rfl) _

theorem directSubAssemblies_delete (db : DB) (eid pid : Nat) :
    directSubAssemblies (delete_bom_entry db eid).1 pid = directSubAssemblies db pid := rfl

theorem mem_matching_entry_eq (l : List BomEntryRow) (e : BomEntryRow) (hmem : e ∈ l)
    (hcount : l.countP (fun b => b.entry_id == e.entry_id) = 1) :
    ∀ b ∈ l, b.entry_id = e.entry_id → b = e := by
  intro b hb hbe
  rw [List.countP_eq_length_filter] at hcount
  obtain ⟨a, ha⟩ := List.length_eq_one.mp hcount
  have he : e ∈ l.filter (fun b => b.entry_id == e.entry_id) :=
    List.mem_filter.mpr ⟨hmem, by simp⟩
  have hbf : b ∈ l.filter (fun b => b.entry_id == e.entry_id) :=
    List.mem_filter.mpr ⟨hb, by simp [hbe]⟩
  rw [ha] at he hbf
  exact (List.mem_singleton.mp hbf).trans (List.mem_singleton.mp he).symm

theorem joined_line_provenance (db : DB) (pid : Nat) (dnp : Bool) :
    ∀ l ∈ joinedComponents db pid dnp, ∃ be ∈ db.bom_entries,
      l.entry_id = be.entry_id ∧ l.unit_cost = bestUnitCost db be.component_id := by
  intro l hl
  unfold joinedComponents at hl
  obtain ⟨be, hbe, hF⟩ := List.mem_filterMap.mp hl
  have hbe2 := (List.mem_filter.mp hbe).1
  cases hfind : db.components.find? (fun c => c.component_id == be.component_id) with
  | none => rw [hfind] at hF; exact absurd hF (by simp)
  | some c =>
    rw [hfind] at hF
    simp only [Option.map_some', Option.some.injEq] at hF
    have hcbeq := List.find?_some hfind
    have hcid : c.component_id = be.component_id := by
      have h2 : (c.component_id == be.component_id) = true := hcbeq
      exact eq_of_beq h2
    refine ⟨be, hbe2, by rw [← hF]; rfl, ?_⟩
    rw [← hF]
    show bestUnitCost db c.component_id = bestUnitCost db be.component_id
    rw [hcid]

theorem foldl_compStep_filter_neutral (q : ℚ) (p : CompLine → Bool) :
    ∀ (comps : List CompLine) (acc : ℚ × List LineItem),
      (∀ x ∈ comps, p x = false → ∀ a, compStep q a x = a) →
      (comps.filter p).foldl (compStep q) acc = comps.foldl (compStep q) acc := by
  intro comps
  induction comps with
  | nil => intro acc _; rfl
  | cons c t ih =>
    intro acc hneutral
    by_cases hp : p c = true
    · rw [List.filter_cons_of_pos hp, List.foldl_cons, List.foldl_cons]
      exact ih _ (fun x hx => hneutral x (List.mem_cons_of_mem c hx))
    · rw [List.filter_cons_of_neg (by simpa using hp), List.foldl_cons,
        hneutral c (List.mem_cons_self c t) (by simpa using hp) acc]
      exact ih _ (fun x hx => hneutral x (List.mem_cons_of_mem c hx))

theorem processSubs_congr (r1 r2 : Nat → ℚ → Option (ℚ × List LineItem))
    (h : ∀ cpid m, r1 cpid m = r2 cpid m) (q : ℚ) :
    ∀ (subs : List SubLine) (acc : ℚ × List LineItem),
      processSubs r1 q subs acc = processSubs r2 q subs acc := by
  intro subs
  induction subs with
  | nil => intro acc; rfl
  | cons sub rest ih =>
    intro acc
    simp only [processSubs]
    rw [h]
    cases r2 sub.product_id (sub.quantity * q) with
    | none => rfl
    | some v => exact ih _

/-- Deleting a BOM entry whose component's best-source cost is Python-falsy
(`NULL` or `0`) does not change `calculate_bom_cost` at all: the entry's
line is skipped entirely by the truthiness guard. -/
theorem calc_delete_falsy (db : DB) (e : BomEntryRow)
    (hmem : e ∈ db.bom_entries)
    (hcount : db.bom_entries.countP (fun b => b.entry_id == e.entry_id) = 1)
    (hfalsy : bestUnitCost db e.component_id = none ∨
      bestUnitCost db e.component_id = some 0) :
    ∀ (fuel : Nat) (pid : Nat) (q : ℚ) (dnp : Bool),
      calculate_bom_cost fuel (delete_bom_entry db e.entry_id).1 pid q dnp
        = calculate_bom_cost fuel db pid q dnp := by
  intro fuel
  induction fuel with
  | zero => intros; rfl
  | succ n ih =>
    intro pid q dnp
    show processSubs _ q (directSubAssemblies (delete_bom_entry db e.entry_id).1 pid) _
      = processSubs _ q (directSubAssemblies db pid) _
    rw [directSubAssemblies_delete]
    have hneutral : ∀ x ∈ directComponents db pid dnp,
        (x.entry_id != e.entry_id) = false → ∀ a, compStep q a x = a := by
      intro x hx hxe a
      have hxj : x ∈ joinedComponents db pid dnp :=
        (List.Perm.mem_iff (List.perm_insertionSort _ _)).mp hx
      obtain ⟨be, hbemem, hid, hcost⟩ := joined_line_provenance db pid dnp x hxj
      have hxeq : x.entry_id = e.entry_id := by
        have := Bool.not_eq_true _ ▸ hxe
        simpa using hxe
      have hbe : be = e :=
        mem_matching_entry_eq db.bom_entries e hmem hcount be hbemem (hid ▸ hxeq)
      rw [hbe] at hcost
      unfold compStep
      rcases hfalsy with hf | hf
      · rw [hcost, hf]
      · rw [hcost, hf]
        simp
    have hpc : processComponents q
        (directComponents (delete_bom_entry db e.entry_id).1 pid dnp)
        = processComponents q (directComponents db pid dnp) := by
      rw [directComponents_delete]
      exact foldl_compStep_filter_neutral q _ (directComponents db pid dnp) (0, []) hneutral
    rw [hpc]
    exact processSubs_congr _ _ (fun cpid m => ih cpid m dnp) q _ _

/-- C10: a direct component line whose best-source unit cost is `NULL` or
`0` is excluded entirely by `calculate_bom_cost`: the result (total and
breakdown alike) is identical to the result on the database with that BOM
entry deleted, because the truthiness guard `if comp['unit_cost']:` rejects
`0.0` exactly as it rejects `None`. -/
theorem c10_zero_cost_line_excluded (db : DB) (e : BomEntryRow)
    (hmem : e ∈ db.bom_entries)
    (hcount : db.bom_entries.countP (fun b => b.entry_id == e.entry_id) = 1)
    (hfalsy : bestUnitCost db e.component_id = some 0 ∨
      bestUnitCost db e.component_id = none) :
    ∀ (fuel : Nat) (pid : Nat) (q : ℚ) (dnp : Bool),
      calculate_bom_cost fuel (delete_bom_entry db e.entry_id).1 pid q dnp
        = calculate_bom_cost fuel db pid q dnp :=
  calc_delete_falsy db e hmem hcount hfalsy.symm

/-- Concrete input for C10: component 10 has one source whose unit cost is
the (non-NULL) value 0; entry 1 links it into product 1. -/
def zeroCostDB : DB :=
  { products := [⟨1, "P", "x"⟩]
    components := [⟨10, "R1", "ACME", "resistor", "RES", "EA"⟩]
    component_sources := [⟨1, 10, "DigiKey", "D", some 0, 1, none, 0⟩]
    bom_entries := [⟨1, 1, 10, 2, "", false⟩]
    sub_assemblies := []
    next_source_id := 2 }

/-- C10 witness: on `zeroCostDB` the zero-cost line is dropped — the output
equals the output after deleting the entry, and is concretely
`some (0, [])`: no breakdown line, nothing added to the total. -/
theorem c10_witness :
    calculate_bom_cost 1 (delete_bom_entry zeroCostDB 1).1 1 1 false
      = calculate_bom_cost 1 zeroCostDB 1 1 false ∧
    calculate_bom_cost 1 zeroCostDB 1 1 false = some (0, []) :=
  ⟨c10_zero_cost_line_excluded zeroCostDB ⟨1, 1, 10, 2, "", false⟩ (by decide) (by decide)
      (by decide) 1 1 1 false,
    by decide⟩

/-- C2 amended: a component line whose component has no Source contributes
0 to the total and is omitted from the breakdown entirely (no unpriced
marker exists in the code): `calculate_bom_cost` returns exactly what it
would return if the entry were deleted. -/
theorem c2_amended_unpriced_line_omitted (db : DB) (e : BomEntryRow)
    (hmem : e ∈ db.bom_entries)
    (hcount : db.bom_entries.countP (fun b => b.entry_id == e.entry_id) = 1)
    (hnosrc : sourcesFor db e.component_id = []) :
    ∀ (fuel : Nat) (pid : Nat) (q : ℚ) (dnp : Bool),
      calculate_bom_cost fuel (delete_bom_entry db e.entry_id).1 pid q dnp
        = calculate_bom_cost fuel db pid q dnp :=
  calc_delete_falsy db e hmem hcount
    (Or.inl (by unfold bestUnitCost bestSource; rw [hnosrc]; rfl))

/-- C2 witness: on `noSourceDB` (component 10 has no sources) the output
equals the output with the entry deleted, concretely `some (0, [])`. -/
theorem c2_amended_witness :
    calculate_bom_cost 1 (delete_bom_entry noSourceDB 1).1 1 1 false
      = calculate_bom_cost 1 noSourceDB 1 1 false ∧
    calculate_bom_cost 1 (delete_bom_entry noSourceDB 1).1 1 1 false = some (0, []) :=
  ⟨c2_amended_unpriced_line_omitted noSourceDB ⟨1, 1, 10, 2, "R1", false⟩ (by decide)
      (by decide) (by decide) 1 1 1 false,
    by decide⟩

/-! ## C4: flatten-sum versus cost total -/

/-- Unit cost of a flattened entry as the caller sums it: a missing cost
reads as 0 (exactly the `if item['unit_cost'] else 0` of the CSV export). -/
def entryCost (e : FlatEntry) : ℚ := e.unit_cost.getD 0

/-- `Σ totalQuantity × unitCost` over a flattened BOM. -/
def flatSum (l : List FlatEntry) : ℚ :=
  (l.map (fun e => e.quantity * entryCost e)).sum

def accSum (acc : List (String × FlatEntry)) : ℚ :=
  flatSum (acc.map Prod.snd)

/-- The flatten key of a component row of the `components` table. -/
def componentKey (c : ComponentRow) : String :=
  c.mfg_part_number ++ "|" ++ c.manufacturer

/-- No two component rows share the `mpn|manufacturer` key string.  The
table's UNIQUE(mfg_part_number, manufacturer) constraint gives this only
when no collision such as `("A|B", "C")` versus `("A", "B|C")` occurs. -/
def KeyInjective (db : DB) : Prop :=
  ∀ c1 ∈ db.components, ∀ c2 ∈ db.components,
    componentKey c1 = componentKey c2 → c1 = c2

instance (db : DB) : Decidable (KeyInjective db) := by
  unfold KeyInjective
  infer_instance

/-- A component line as produced by the join: its key fields and best cost
come from one row of the `components` table. -/
def GoodLine (db : DB) (l : CompLine) : Prop :=
  ∃ c ∈ db.components, c.mfg_part_number = l.mfg_part_number ∧
    c.manufacturer = l.manufacturer ∧ l.unit_cost = bestUnitCost db c.component_id

theorem goodLine_of_mem_direct (db : DB) (pid : Nat) (dnp : Bool) :
    ∀ l ∈ directComponents db pid dnp, GoodLine db l := by
  intro l hl
  have hlj : l ∈ joinedComponents db pid dnp :=
    (List.Perm.mem_iff (List.perm_insertionSort _ _)).mp hl
  unfold joinedComponents at hlj
  obtain ⟨be, _, hF⟩ := List.mem_filterMap.mp hlj
  cases hfind : db.components.find? (fun c => c.component_id == be.component_id) with
  | none => rw [hfind] at hF; exact absurd hF (by simp)
  | some c =>
    rw [hfind] at hF
    simp only [Option.map_some', Option.some.injEq] at hF
    exact ⟨c, List.mem_of_find?_eq_some hfind, by rw [← hF]; rfl, by rw [← hF]; rfl,
      by rw [← hF]; rfl⟩

/-- The well-formedness invariant of the `flattened` accumulator: keys are
distinct, and every stored entry's key and unit cost come from a component
row of the database. -/
def AccOk (db : DB) (acc : List (String × FlatEntry)) : Prop :=
  (acc.map Prod.fst).Nodup ∧
  ∀ kv ∈ acc, ∃ c ∈ db.components, componentKey c = kv.1 ∧
    kv.2.unit_cost = bestUnitCost db c.component_id

theorem addComp_keys (q : ℚ) (acc : List (String × FlatEntry)) (comp : CompLine) :
    (addComp q acc comp).map Prod.fst = acc.map Prod.fst ∨
    (addComp q acc comp).map Prod.fst = acc.map Prod.fst ++ [flatKey comp] := by
  unfold addComp
  by_cases h : (acc.any fun kv => kv.1 == flatKey comp) = true
  · rw [if_pos h]
    left
    rw [List.map_map]
    apply List.map_congr_left
    intro kv _
    simp only [Function.comp_apply]
    by_cases hk : (kv.1 == flatKey comp) = true
    · rw [if_pos hk]; rfl
    · rw [if_neg hk]
  · rw [if_neg h]
    right
    rw [List.map_append]
    rfl

theorem accSum_cons (y : String × FlatEntry) (l : List (String × FlatEntry)) :
    accSum (y :: l) = y.2.quantity * entryCost y.2 + accSum l := by
  unfold accSum flatSum
  rw [List.map_cons, List.map_cons, List.sum_cons]

theorem addComp_accSum (db : DB) (hinj : KeyInjective db) (q : ℚ) (comp : CompLine)
    (hgood : GoodLine db comp) :
    ∀ acc : List (String × FlatEntry), AccOk db acc →
      accSum (addComp q acc comp)
          = accSum acc + comp.unit_cost.getD 0 * comp.quantity * q ∧
      AccOk db (addComp q acc comp) := by
  intro acc
  induction acc with
  | nil =>
    intro _
    obtain ⟨c, hcmem, hc1, hc2, hc3⟩ := hgood
    refine ⟨?_, ?_⟩
    · show accSum [(flatKey comp, newFlatEntry q comp)] = _
      rw [accSum_cons]
      show (newFlatEntry q comp).quantity * entryCost (newFlatEntry q comp) + accSum []
        = _
      rw [show (newFlatEntry q comp).quantity = comp.quantity * q from rfl,
        show entryCost (newFlatEntry q comp) = comp.unit_cost.getD 0 from rfl,
        show accSum [] = 0 from rfl]
      ring
    · refine ⟨by
        rw [show addComp q [] comp = [(flatKey comp, newFlatEntry q comp)] from rfl]
        simp, ?_⟩
      intro kv hkv
      rw [show addComp q [] comp = [(flatKey comp, newFlatEntry q comp)] from rfl] at hkv
      rw [List.mem_singleton.mp hkv]
      refine ⟨c, hcmem, ?_, hc3⟩
      unfold componentKey flatKey
      rw [hc1, hc2]
  | cons kv rest ih =>
    intro hok
    obtain ⟨hnodup, hprops⟩ := hok
    rw [List.map_cons] at hnodup
    obtain ⟨hkv_notin, hnodup_rest⟩ := List.nodup_cons.mp hnodup
    by_cases hk : (kv.1 == flatKey comp) = true
    · have hkey : kv.1 = flatKey comp := eq_of_beq hk
      have hany : ((kv :: rest).any fun x => x.1 == flatKey comp) = true := by
        rw [List.any_cons, hk, Bool.true_or]
      have hrest_ne : ∀ x ∈ rest, (x.1 == flatKey comp) = false := by
        intro x hx
        have hne : x.1 ≠ kv.1 := by
          intro hcontra
          exact hkv_notin (hcontra ▸ List.mem_map_of_mem Prod.fst hx)
        rw [beq_eq_false_iff_ne]
        rw [hkey] at hne
        exact hne
      have heq : addComp q (kv :: rest) comp
          = bumpQuantity (comp.quantity * q) kv :: rest := by
        unfold addComp
        rw [if_pos hany, List.map_cons, if_pos hk]
        congr 1
        have hpt : ∀ x ∈ rest,
            (if x.1 == flatKey comp then bumpQuantity (comp.quantity * q) x else x) = x :=
          fun x hx => by rw [hrest_ne x hx]; rfl
        rw [List.map_congr_left hpt, List.map_id']
      rw [heq]
      obtain ⟨c, hcmem, hc1, hc2, hc3⟩ := hgood
      obtain ⟨c2, hc2mem, hk2, hcost2⟩ := hprops kv (List.mem_cons_self kv rest)
      have hkeyc : componentKey c = kv.1 := by
        rw [hkey]
        unfold componentKey flatKey
        rw [hc1, hc2]
      have hceq : c = c2 := hinj c hcmem c2 hc2mem (hkeyc.trans hk2.symm)
      have hcosteq : kv.2.unit_cost = comp.unit_cost := by
        rw [hcost2, ← hceq, ← hc3]
      refine ⟨?_, ?_, ?_⟩
      · rw [accSum_cons, accSum_cons]
        rw [show (bumpQuantity (comp.quantity * q) kv).2.quantity
            = kv.2.quantity + comp.quantity * q from rfl,
          show entryCost (bumpQuantity (comp.quantity * q) kv).2
            = entryCost kv.2 from rfl]
        unfold entryCost
        rw [hcosteq]
        ring
      · show ((bumpQuantity (comp.quantity * q) kv :: rest).map Prod.fst).Nodup
        rw [List.map_cons]
        rw [show (bumpQuantity (comp.quantity * q) kv).1 = kv.1 from rfl]
        exact hnodup
      · intro x hx
        rcases List.mem_cons.mp hx with rfl | hx2
        · refine ⟨c2, hc2mem, hk2, ?_⟩
          rw [show (bumpQuantity (comp.quantity * q) kv).2.unit_cost
              = kv.2.unit_cost from rfl]
          exact hcost2
        · exact hprops x (List.mem_cons_of_mem kv hx2)
    · have hk' : (kv.1 == flatKey comp) = false := Bool.eq_false_iff.mpr hk
      have heq : addComp q (kv :: rest) comp = kv :: addComp q rest comp := by
        unfold addComp
        rw [List.any_cons, hk', Bool.false_or]
        by_cases h2 : (rest.any fun x => x.1 == flatKey comp) = true
        · rw [if_pos h2, if_pos h2, List.map_cons, if_neg hk]
        · rw [if_neg h2, if_neg h2, List.cons_append]
      rw [heq]
      have hokrest : AccOk db rest :=
        ⟨hnodup_rest, fun x hx => hprops x (List.mem_cons_of_mem kv hx)⟩
      obtain ⟨hsum, hok2⟩ := ih hokrest
      obtain ⟨hnodup2, hprops2⟩ := hok2
      refine ⟨?_, ?_, ?_⟩
      · rw [accSum_cons, accSum_cons, hsum]
        ring
      · rw [List.map_cons]
        rcases addComp_keys q rest comp with hkeys | hkeys
        · rw [hkeys]
          exact hnodup
        · rw [hkeys, List.nodup_cons]
          refine ⟨?_, by rw [← hkeys]; exact hnodup2⟩
          intro hmem2
          rcases List.mem_append.mp hmem2 with h | h
          · exact hkv_notin h
          · exact hk (beq_iff_eq.mpr (List.mem_singleton.mp h))
      · intro x hx
        rcases List.mem_cons.mp hx with rfl | hx2
        · exact hprops x (List.mem_cons_self x rest)
        · exact hprops2 x hx2

theorem foldl_addComp_accSum (db : DB) (hinj : KeyInjective db) (q : ℚ) :
    ∀ (comps : List CompLine), (∀ l ∈ comps, GoodLine db l) →
      ∀ acc, AccOk db acc →
        accSum (comps.foldl (addComp q) acc)
            = accSum acc + (comps.map (compContribution q)).sum ∧
        AccOk db (comps.foldl (addComp q) acc) := by
  intro comps
  induction comps with
  | nil =>
    intro _ acc hok
    refine ⟨?_, hok⟩
    simp
  | cons c t ih =>
    intro hgood acc hok
    rw [List.foldl_cons]
    obtain ⟨hsum1, hok1⟩ :=
      addComp_accSum db hinj q c (hgood c (List.mem_cons_self c t)) acc hok
    obtain ⟨hsum2, hok2⟩ :=
      ih (fun l hl => hgood l (List.mem_cons_of_mem c hl)) (addComp q acc c) hok1
    refine ⟨?_, hok2⟩
    rw [hsum2, hsum1, List.map_cons, List.sum_cons]
    unfold compContribution
    ring

theorem subs_accSum_aux (db : DB)
    (calcRec : Nat → ℚ → Option (ℚ × List LineItem))
    (flatRec : Nat → ℚ → List (String × FlatEntry) → Option (List (String × FlatEntry)))
    (hrec : ∀ cpid m acc t items acc2, AccOk db acc → calcRec cpid m = some (t, items) →
      flatRec cpid m acc = some acc2 → accSum acc2 = accSum acc + t ∧ AccOk db acc2)
    (q : ℚ) :
    ∀ (subs : List SubLine) (acc0 : ℚ × List LineItem)
      (accIn : List (String × FlatEntry)) (t : ℚ) (items : List LineItem)
      (acc2 : List (String × FlatEntry)),
      AccOk db accIn →
      processSubs calcRec q subs acc0 = some (t, items) →
      flattenSubs flatRec subs q accIn = some acc2 →
      accSum acc2 = accSum accIn + (t - acc0.1) ∧ AccOk db acc2 := by
  intro subs
  induction subs with
  | nil =>
    intro acc0 accIn t items acc2 hok hcalc hflat
    simp only [processSubs, Option.some.injEq] at hcalc
    simp only [flattenSubs, Option.some.injEq] at hflat
    have ht : acc0.1 = t := by rw [hcalc]
    rw [← hflat, ← ht]
    exact ⟨by ring, hok⟩
  | cons sub rest ih =>
    intro acc0 accIn t items acc2 hok hcalc hflat
    simp only [processSubs] at hcalc
    simp only [flattenSubs] at hflat
    cases hc : calcRec sub.product_id (sub.quantity * q) with
    | none => rw [hc] at hcalc; exact absurd hcalc (by simp)
    | some v =>
      obtain ⟨ct, bl⟩ := v
      rw [hc] at hcalc
      cases hfnext : flatRec sub.product_id (sub.quantity * q) accIn with
      | none => rw [hfnext] at hflat; exact absurd hflat (by simp)
      | some acc1 =>
        rw [hfnext] at hflat
        obtain ⟨hsum1, hok1⟩ := hrec _ _ accIn ct bl acc1 hok hc hfnext
        obtain ⟨hsum2, hok2⟩ := ih _ acc1 t items acc2 hok1 hcalc hflat
        refine ⟨?_, hok2⟩
        rw [hsum2, hsum1]
        show accSum accIn + ct + (t - (acc0.1 + ct)) = _
        ring

theorem calc_flatten_accSum (db : DB) (dnp : Bool) (hinj : KeyInjective db) :
    ∀ (fuel : Nat) (pid : Nat) (q : ℚ) (acc : List (String × FlatEntry))
      (t : ℚ) (items : List LineItem) (acc2 : List (String × FlatEntry)),
      AccOk db acc →
      calculate_bom_cost fuel db pid q dnp = some (t, items) →
      flatten_recursive fuel db dnp pid q acc = some acc2 →
      accSum acc2 = accSum acc + t ∧ AccOk db acc2 := by
  intro fuel
  induction fuel with
  | zero =>
    intro pid q acc t items acc2 _ h _
    exact absurd h (by simp [calculate_bom_cost])
  | succ n ih =>
    intro pid q acc t items acc2 hok hcalc hflat
    obtain ⟨hsum0, hok0⟩ := foldl_addComp_accSum db hinj q (directComponents db pid dnp)
      (goodLine_of_mem_direct db pid dnp) acc hok
    have hfst : (processComponents q (directComponents db pid dnp)).1
        = ((directComponents db pid dnp).map (compContribution q)).sum :=
      processComponents_fst q _
    obtain ⟨hsum, hok2⟩ := subs_accSum_aux db _ _
      (fun cpid m a tc ic a2 hoka hca hfa => ih cpid m a tc ic a2 hoka hca hfa) q
      (directSubAssemblies db pid) (processComponents q (directComponents db pid dnp))
      ((directComponents db pid dnp).foldl (addComp q) acc) t items acc2 hok0 hcalc hflat
    refine ⟨?_, hok2⟩
    rw [hsum, hsum0, hfst]
    ring

/-- C4 (amended): for every database whose components have pairwise distinct
`mpn|manufacturer` key strings, summing `totalQuantity × unitCost` over
`get_flattened_bom` equals the `calculate_bom_cost` total, for the same
root, multiplier and DNP flag, whenever both calls complete.  (The equality
needs no pricing hypothesis: a component without a priced source
contributes 0 on both sides.) -/
theorem c4_amended_flatten_sum_eq_total (db : DB) (pid : Nat) (q : ℚ) (dnp : Bool)
    (fuel : Nat) (t : ℚ) (items : List LineItem) (entries : List FlatEntry)
    (hinj : KeyInjective db)
    (hcalc : calculate_bom_cost fuel db pid q dnp = some (t, items))
    (hflat : get_flattened_bom fuel db pid q dnp = some entries) :
    flatSum entries = t := by
  unfold get_flattened_bom at hflat
  cases hf : flatten_recursive fuel db dnp pid q [] with
  | none => rw [hf] at hflat; exact absurd hflat (by simp)
  | some acc2 =>
    rw [hf] at hflat
    simp only [Option.map_some', Option.some.injEq] at hflat
    have hnil : AccOk db [] := ⟨List.nodup_nil, fun kv hkv => absurd hkv (List.not_mem_nil kv)⟩
    obtain ⟨hsum, _⟩ := calc_flatten_accSum db dnp hinj fuel pid q [] t items acc2
      hnil hcalc hf
    rw [show accSum [] = 0 from rfl] at hsum
    rw [← hflat]
    show accSum acc2 = t
    rw [hsum]
    ring

/-- The spec's concrete scenario (§8): WIDGET-1 has component C1
(cost 5/2, qty 4) and sub-assembly SUB-1 (qty 2) containing C2
(cost 1, qty 3); the total is 16 both ways. -/
def widgetDB : DB :=
  { products := [⟨1, "WIDGET-1", "w"⟩, ⟨2, "SUB-1", "s"⟩]
    components := [⟨10, "C1", "M1", "", "", "EA"⟩, ⟨11, "C2", "M2", "", "", "EA"⟩]
    component_sources := [⟨1, 10, "D", "", some (5 / 2), 1, none, 0⟩,
      ⟨2, 11, "D", "", some 1, 1, none, 0⟩]
    bom_entries := [⟨1, 1, 10, 4, "", false⟩, ⟨2, 2, 11, 3, "", false⟩]
    sub_assemblies := [⟨1, 1, 2, 2, ""⟩]
    next_source_id := 3 }

/-- C4 witness: on `widgetDB` both sides equal 16. -/
theorem c4_witness :
    flatSum [⟨"C1", "M1", "", "", "EA", 4, some "D", some "", some (5 / 2), false⟩,
      ⟨"C2", "M2", "", "", "EA", 6, some "D", some "", some 1, false⟩] = 16 := by
  have hcalc : calculate_bom_cost 2 widgetDB 1 1 false
      = some (16, [⟨"C1 (M1)", 4, 5 / 2, 10⟩, ⟨"[SUB-ASSEMBLY] SUB-1 - s", 2, 3, 6⟩]) := by
    norm_num [calculate_bom_cost, processSubs, processComponents, compStep,
      directComponents, joinedComponents, directSubAssemblies, joinedSubAssemblies,
      mkCompLine, bestSource, bestUnitCost, sourcesFor, dnpKeep, compLabel, subLabel,
      subUnitCost, widgetDB, List.insertionSort, List.orderedInsert]
    all_goals try simp
  have hflat : get_flattened_bom 2 widgetDB 1 1 false
      = some [⟨"C1", "M1", "", "", "EA", 4, some "D", some "", some (5 / 2), false⟩,
        ⟨"C2", "M2", "", "", "EA", 6, some "D", some "", some 1, false⟩] := by
    norm_num [get_flattened_bom, flatten_recursive, flattenSubs, addComp, flatKey,
      newFlatEntry, bumpQuantity, directComponents, joinedComponents,
      directSubAssemblies, joinedSubAssemblies, mkCompLine, bestSource, bestUnitCost,
      sourcesFor, dnpKeep, widgetDB, List.insertionSort, List.orderedInsert]
    all_goals try simp
  exact c4_amended_flatten_sum_eq_total widgetDB 1 1 false 2 16 _ _ (by decide) hcalc hflat

/-- C4 counterexample input: distinct components ("A|B", "C") and
("A", "B|C") collide on the flatten key string "A|B|C".  The root holds the
first directly and the second through sub-assembly 2; every reachable
component is priced and the graph is acyclic. -/
def pipeDB : DB :=
  { products := [⟨1, "ROOT", "r"⟩, ⟨2, "S", "s"⟩]
    components := [⟨10, "A|B", "C", "", "", "EA"⟩, ⟨11, "A", "B|C", "", "", "EA"⟩]
    component_sources := [⟨1, 10, "D", "", some 1, 1, none, 0⟩,
      ⟨2, 11, "D", "", some 2, 1, none, 0⟩]
    bom_entries := [⟨1, 1, 10, 1, "", false⟩, ⟨2, 2, 11, 1, "", false⟩]
    sub_assemblies := [⟨1, 1, 2, 1, ""⟩]
    next_source_id := 3 }

/-- C4 counterexample: on `pipeDB` — an acyclic graph in which every
reachable component has a priced source — the cost total is 3 but the
flatten cross-check sums to 2: the two distinct components merge under the
collided key "A|B|C" and keep the first encounter's unit cost.  The claim's
equality is false as stated. -/
theorem c4_counterexample :
    (calculate_bom_cost 2 pipeDB 1 1 false).map Prod.fst = some 3 ∧
    (get_flattened_bom 2 pipeDB 1 1 false).map flatSum = some 2 ∧
    (∀ l ∈ directComponents pipeDB 1 false, l.unit_cost.isSome = true) ∧
    (∀ l ∈ directComponents pipeDB 2 false, l.unit_cost.isSome = true) ∧
    (2 : ℚ) ≠ 3 := by
  refine ⟨?_, ?_, by decide, by decide, by norm_num⟩
  · norm_num [calculate_bom_cost, processSubs, processComponents, compStep,
      directComponents, joinedComponents, directSubAssemblies, joinedSubAssemblies,
      mkCompLine, bestSource, bestUnitCost, sourcesFor, dnpKeep, compLabel, subLabel,
      subUnitCost, pipeDB, List.insertionSort, List.orderedInsert]
  · norm_num [get_flattened_bom, flatten_recursive, flattenSubs, addComp, flatKey,
      flatSum, entryCost, newFlatEntry, bumpQuantity, directComponents,
      joinedComponents, directSubAssemblies, joinedSubAssemblies, mkCompLine,
      bestSource, bestUnitCost, sourcesFor, dnpKeep, pipeDB,
      List.insertionSort, List.orderedInsert]
    all_goals try simp

/-! ## C6: repeated keys merge by addition -/

def keyOccsSubs (recur : Nat → ℚ → Option (List ℚ)) :
    List SubLine → ℚ → Option (List ℚ)
  | [], _ => some []
  | sub :: rest, qty =>
    match recur sub.product_id (sub.quantity * qty) with
    | none => none
    | some l1 =>
      match keyOccsSubs recur rest qty with
      | none => none
      | some l2 => some (l1 ++ l2)

/-- Modelled from the spec: the path-multiplier-scaled quantities of the
successive encounters of one flatten key along the traversal
(a node's component lines first, then its sub-assemblies in order) — the
"q1, q2" of the claim.  Fuel-indexed like the traversal itself. -/
def keyOccList : Nat → DB → Bool → String → Nat → ℚ → Option (List ℚ)
  | 0, _, _, _, _, _ => none
  | fuel + 1, db, dnp, key, pid, qty =>
    match keyOccsSubs (fun cpid m => keyOccList fuel db dnp key cpid m)
        (directSubAssemblies db pid) qty with
    | none => none
    | some ls =>
      some ((((directComponents db pid dnp).filter
        (fun c => flatKey c == key)).map (fun c => c.quantity * qty)) ++ ls)

/-- Folding a batch of encounters into the stored quantity for a key:
absent and no encounters stays absent; otherwise quantities add. -/
def mergeQ : Option ℚ → List ℚ → Option ℚ
  | some v, l => some (v + l.sum)
  | none, l => if l.isEmpty then none else some l.sum

/-- The quantity stored under `key` in the accumulator, if present. -/
def qtyOf (key : String) (acc : List (String × FlatEntry)) : Option ℚ :=
  (acc.find? (fun kv => kv.1 == key)).map (fun kv => kv.2.quantity)

theorem mergeQ_nil (o : Option ℚ) : mergeQ o [] = o := by
  cases o <;> simp [mergeQ]

theorem mergeQ_some_single (v x : ℚ) : mergeQ (some v) [x] = some (v + x) := by
  simp [mergeQ]

theorem mergeQ_none_single (x : ℚ) : mergeQ none [x] = some x := by
  simp [mergeQ]

theorem mergeQ_append (o : Option ℚ) (l1 l2 : List ℚ) :
    mergeQ (mergeQ o l1) l2 = mergeQ o (l1 ++ l2) := by
  cases o with
  | some v => simp [mergeQ, add_assoc]
  | none =>
    cases l1 with
    | nil => simp [mergeQ]
    | cons a t => simp [mergeQ, add_assoc]

theorem find?_map_fst_invariant (g : String × FlatEntry → String × FlatEntry)
    (hg : ∀ kv, (g kv).1 = kv.1) (p : String → Bool) :
    ∀ acc : List (String × FlatEntry),
      (acc.map g).find? (fun kv => p kv.1) = (acc.find? (fun kv => p kv.1)).map g := by
  intro acc
  induction acc with
  | nil => rfl
  | cons kv rest ih =>
    rw [List.map_cons]
    by_cases hp : p kv.1 = true
    · rw [List.find?_cons_of_pos _ (by rw [hg kv]; exact hp),
        List.find?_cons_of_pos (p := fun kv => p kv.1) rest hp, Option.map_some']
    · rw [List.find?_cons_of_neg _ (by rw [hg kv]; exact hp),
        List.find?_cons_of_neg (p := fun kv => p kv.1) rest hp, ih]

theorem qtyOf_addComp (q : ℚ) (key : String) (acc : List (String × FlatEntry))
    (comp : CompLine) :
    qtyOf key (addComp q acc comp)
      = if flatKey comp == key then mergeQ (qtyOf key acc) [comp.quantity * q]
        else qtyOf key acc := by
  unfold addComp
  by_cases hany : (acc.any fun kv => kv.1 == flatKey comp) = true
  · rw [if_pos hany]
    unfold qtyOf
    rw [find?_map_fst_invariant
      (fun kv => if kv.1 == flatKey comp then bumpQuantity (comp.quantity * q) kv else kv)
      (fun kv => by
        show (if kv.1 == flatKey comp then bumpQuantity (comp.quantity * q) kv else kv).1
          = kv.1
        by_cases hk : (kv.1 == flatKey comp) = true
        · rw [if_pos hk]; rfl
        · rw [if_neg hk]) (fun s => s == key)]
    by_cases hkey : (flatKey comp == key) = true
    · have hkeyeq : flatKey comp = key := eq_of_beq hkey
      obtain ⟨kv0, hkv0mem, hkv0p⟩ := List.any_eq_true.mp hany
      have hfound : (acc.find? fun kv => kv.1 == key).isSome :=
        List.find?_isSome.mpr ⟨kv0, hkv0mem, by rw [← hkeyeq]; exact hkv0p⟩
      cases hfind : acc.find? fun kv => kv.1 == key with
      | none => rw [hfind] at hfound; exact absurd hfound (by simp)
      | some kvf =>
        have hkvfp0 := List.find?_some hfind
        have hkvfp : (kvf.1 == key) = true := hkvfp0
        rw [if_pos hkey, Option.map_some', Option.map_some']
        rw [show (if kvf.1 == flatKey comp
            then bumpQuantity (comp.quantity * q) kvf else kvf)
          = bumpQuantity (comp.quantity * q) kvf from by
            rw [if_pos (by rw [hkeyeq]; exact hkvfp)]]
        show some (kvf.2.quantity + comp.quantity * q)
          = mergeQ (some kvf.2.quantity) [comp.quantity * q]
        rw [mergeQ_some_single]
    · rw [if_neg hkey]
      cases hfind : acc.find? fun kv => kv.1 == key with
      | none => rfl
      | some kvf =>
        have hkvfp0 := List.find?_some hfind
        have hkvfp : (kvf.1 == key) = true := hkvfp0
        rw [Option.map_some', Option.map_some']
        rw [show (if kvf.1 == flatKey comp
            then bumpQuantity (comp.quantity * q) kvf else kvf) = kvf from by
          rw [if_neg (by
            intro hcontra
            exact hkey (by rw [← eq_of_beq hcontra]; exact hkvfp))]]
        rfl
  · rw [if_neg hany]
    unfold qtyOf
    rw [List.find?_append]
    cases hfind : acc.find? fun kv => kv.1 == key with
    | none =>
      rw [Option.none_or]
      by_cases hkey : (flatKey comp == key) = true
      · rw [if_pos hkey,
          List.find?_cons_of_pos (p := fun kv : String × FlatEntry => kv.1 == key) [] hkey]
        show some (newFlatEntry q comp).quantity = mergeQ none [comp.quantity * q]
        rw [mergeQ_none_single]
        rfl
      · rw [if_neg hkey,
          List.find?_cons_of_neg (p := fun kv : String × FlatEntry => kv.1 == key) [] hkey]
        rfl
    | some kvf =>
      rw [show ((some kvf).or (List.find? (fun kv => kv.1 == key)
          [(flatKey comp, newFlatEntry q comp)])) = some kvf from rfl, Option.map_some']
      have hkvfp0 := List.find?_some hfind
      have hkvfp : (kvf.1 == key) = true := hkvfp0
      have hkey : ¬(flatKey comp == key) = true := by
        intro hcontra
        have hmemf := List.mem_of_find?_eq_some hfind
        have : (kvf.1 == flatKey comp) = true := by
          rw [beq_iff_eq] at hkvfp hcontra ⊢
          rw [hkvfp, hcontra]
        exact (by rw [List.any_eq_true] at hany; exact hany ⟨kvf, hmemf, this⟩ : False)
      rw [if_neg hkey]

theorem qtyOf_foldl_addComp (q : ℚ) (key : String) :
    ∀ (comps : List CompLine) (acc : List (String × FlatEntry)),
      qtyOf key (comps.foldl (addComp q) acc)
        = mergeQ (qtyOf key acc)
            ((comps.filter (fun c => flatKey c == key)).map (fun c => c.quantity * q)) := by
  intro comps
  induction comps with
  | nil =>
    intro acc
    rw [List.foldl_nil, List.filter_nil, List.map_nil, mergeQ_nil]
  | cons c t ih =>
    intro acc
    rw [List.foldl_cons, ih, qtyOf_addComp]
    by_cases hk : (flatKey c == key) = true
    · rw [if_pos hk,
        List.filter_cons_of_pos (p := fun c : CompLine => flatKey c == key) hk,
        List.map_cons, mergeQ_append, List.singleton_append]
    · rw [if_neg hk,
        List.filter_cons_of_neg (p := fun c : CompLine => flatKey c == key) hk]

theorem flattenSubs_qtyOf (key : String)
    (flatRec : Nat → ℚ → List (String × FlatEntry) → Option (List (String × FlatEntry)))
    (occRec : Nat → ℚ → Option (List ℚ))
    (hrec : ∀ cpid m acc acc2 l, flatRec cpid m acc = some acc2 →
      occRec cpid m = some l → qtyOf key acc2 = mergeQ (qtyOf key acc) l) :
    ∀ (subs : List SubLine) (qty : ℚ) (acc acc2 : List (String × FlatEntry)) (l : List ℚ),
      flattenSubs flatRec subs qty acc = some acc2 →
      keyOccsSubs occRec subs qty = some l →
      qtyOf key acc2 = mergeQ (qtyOf key acc) l := by
  intro subs
  induction subs with
  | nil =>
    intro qty acc acc2 l hflat hocc
    simp only [flattenSubs, Option.some.injEq] at hflat
    simp only [keyOccsSubs, Option.some.injEq] at hocc
    rw [← hflat, ← hocc, mergeQ_nil]
  | cons sub rest ih =>
    intro qty acc acc2 l hflat hocc
    simp only [flattenSubs] at hflat
    simp only [keyOccsSubs] at hocc
    cases hf1 : flatRec sub.product_id (sub.quantity * qty) acc with
    | none => rw [hf1] at hflat; exact absurd hflat (by simp)
    | some acc1 =>
      rw [hf1] at hflat
      cases ho1 : occRec sub.product_id (sub.quantity * qty) with
      | none => rw [ho1] at hocc; exact absurd hocc (by simp)
      | some l1 =>
        rw [ho1] at hocc
        cases ho2 : keyOccsSubs occRec rest qty with
        | none => rw [ho2] at hocc; exact absurd hocc (by simp)
        | some l2 =>
          rw [ho2] at hocc
          simp only [Option.some.injEq] at hocc
          rw [ih qty acc1 acc2 l2 hflat ho2, hrec _ _ acc acc1 l1 hf1 ho1,
            mergeQ_append, hocc]

theorem flatten_qtyOf (db : DB) (dnp : Bool) (key : String) :
    ∀ (fuel : Nat) (pid : Nat) (qty : ℚ) (acc acc2 : List (String × FlatEntry))
      (l : List ℚ),
      flatten_recursive fuel db dnp pid qty acc = some acc2 →
      keyOccList fuel db dnp key pid qty = some l →
      qtyOf key acc2 = mergeQ (qtyOf key acc) l := by
  intro fuel
  induction fuel with
  | zero =>
    intro pid qty acc acc2 l h _
    exact absurd h (by simp [flatten_recursive])
  | succ n ih =>
    intro pid qty acc acc2 l hflat hocc
    simp only [flatten_recursive] at hflat
    simp only [keyOccList] at hocc
    cases ho : keyOccsSubs (fun cpid m => keyOccList n db dnp key cpid m)
        (directSubAssemblies db pid) qty with
    | none => rw [ho] at hocc; exact absurd hocc (by simp)
    | some ls =>
      rw [ho] at hocc
      simp only [Option.some.injEq] at hocc
      rw [flattenSubs_qtyOf key _ _ (fun cpid m a a2 lx hf hx => ih cpid m a a2 lx hf hx)
          (directSubAssemblies db pid) qty _ acc2 ls hflat ho,
        qtyOf_foldl_addComp, mergeQ_append, hocc]

/-- Keys stored in the accumulator are distinct and each equals the entry's
own `mpn|manufacturer` string. -/
def AccKeys (acc : List (String × FlatEntry)) : Prop :=
  (acc.map Prod.fst).Nodup ∧ ∀ kv ∈ acc, kv.1 = entryKey kv.2

theorem addComp_accKeys (q : ℚ) (comp : CompLine) :
    ∀ acc, AccKeys acc → AccKeys (addComp q acc comp) := by
  intro acc hok
  obtain ⟨hnodup, hkeys⟩ := hok
  constructor
  · rcases addComp_keys q acc comp with hk | hk
    · rw [hk]; exact hnodup
    · rw [hk, List.nodup_append]
      refine ⟨hnodup, List.nodup_singleton _, fun x hx => ?_⟩
      obtain ⟨kv, hkv, rfl⟩ := List.mem_map.mp hx
      rw [List.mem_singleton]
      intro hcontra
      have : (acc.any fun kv => kv.1 == flatKey comp) = true :=
        List.any_eq_true.mpr ⟨kv, hkv, beq_iff_eq.mpr hcontra⟩
      unfold addComp at hk
      rw [if_pos this] at hk
      have hlen := congrArg List.length hk
      simp at hlen
  · intro kv hkv
    unfold addComp at hkv
    by_cases hany : (acc.any fun x => x.1 == flatKey comp) = true
    · rw [if_pos hany] at hkv
      obtain ⟨kv0, hkv0, rfl⟩ := List.mem_map.mp hkv
      by_cases hk : (kv0.1 == flatKey comp) = true
      · rw [if_pos hk]
        show kv0.1 = entryKey (bumpQuantity (comp.quantity * q) kv0).2
        rw [show entryKey (bumpQuantity (comp.quantity * q) kv0).2
            = entryKey kv0.2 from rfl]
        exact hkeys kv0 hkv0
      · rw [if_neg hk]
        exact hkeys kv0 hkv0
    · rw [if_neg hany] at hkv
      rcases List.mem_append.mp hkv with h | h
      · exact hkeys kv h
      · rw [List.mem_singleton.mp h]
        rfl

theorem foldl_addComp_accKeys (q : ℚ) :
    ∀ (comps : List CompLine) (acc), AccKeys acc →
      AccKeys (comps.foldl (addComp q) acc) := by
  intro comps
  induction comps with
  | nil => intro acc h; exact h
  | cons c t ih =>
    intro acc h
    rw [List.foldl_cons]
    exact ih _ (addComp_accKeys q c acc h)

theorem flattenSubs_accKeys
    (flatRec : Nat → ℚ → List (String × FlatEntry) → Option (List (String × FlatEntry)))
    (hrec : ∀ cpid m acc acc2, flatRec cpid m acc = some acc2 →
      AccKeys acc → AccKeys acc2) :
    ∀ (subs : List SubLine) (qty : ℚ) (acc acc2 : List (String × FlatEntry)),
      flattenSubs flatRec subs qty acc = some acc2 → AccKeys acc → AccKeys acc2 := by
  intro subs
  induction subs with
  | nil =>
    intro qty acc acc2 h hok
    simp only [flattenSubs, Option.some.injEq] at h
    rw [← h]
    exact hok
  | cons sub rest ih =>
    intro qty acc acc2 h hok
    simp only [flattenSubs] at h
    cases hf1 : flatRec sub.product_id (sub.quantity * qty) acc with
    | none => rw [hf1] at h; exact absurd h (by simp)
    | some acc1 =>
      rw [hf1] at h
      exact ih qty acc1 acc2 h (hrec _ _ acc acc1 hf1 hok)

theorem flatten_accKeys (db : DB) (dnp : Bool) :
    ∀ (fuel : Nat) (pid : Nat) (qty : ℚ) (acc acc2 : List (String × FlatEntry)),
      flatten_recursive fuel db dnp pid qty acc = some acc2 →
      AccKeys acc → AccKeys acc2 := by
  intro fuel
  induction fuel with
  | zero =>
    intro pid qty acc acc2 h _
    exact absurd h (by simp [flatten_recursive])
  | succ n ih =>
    intro pid qty acc acc2 h hok
    simp only [flatten_recursive] at h
    exact flattenSubs_accKeys _ (fun cpid m a a2 hf hk => ih cpid m a a2 hf hk)
      (directSubAssemblies db pid) qty _ acc2 h
      (foldl_addComp_accKeys qty (directComponents db pid dnp) acc hok)

theorem countP_key_le_one (key : String) :
    ∀ acc : List (String × FlatEntry), (acc.map Prod.fst).Nodup →
      acc.countP (fun kv => kv.1 == key) ≤ 1 := by
  intro acc
  induction acc with
  | nil => intro _; simp
  | cons kv rest ih =>
    intro hnodup
    rw [List.map_cons] at hnodup
    obtain ⟨hnotin, hnodup2⟩ := List.nodup_cons.mp hnodup
    by_cases hk : (kv.1 == key) = true
    · rw [List.countP_cons_of_pos (fun kv : String × FlatEntry => kv.1 == key) rest hk]
      have hz : rest.countP (fun x => x.1 == key) = 0 := by
        rw [List.countP_eq_zero]
        intro x hx hxk
        exact hnotin (by
          rw [show kv.1 = x.1 from (eq_of_beq hk).trans (eq_of_beq hxk).symm]
          exact List.mem_map_of_mem Prod.fst hx)
      omega
    · rw [List.countP_cons_of_neg (fun kv : String × FlatEntry => kv.1 == key) rest hk]
      exact ih hnodup2

/-- C6: if the traversal encounters a flatten key exactly twice, with
path-scaled quantities `q1` and `q2`, then `get_flattened_bom` returns
exactly one entry for that key and its `totalQuantity` is `q1 + q2`: the
second encounter adds to the stored quantity instead of overwriting it. -/
theorem c6_repeated_key_quantities_add (fuel : Nat) (db : DB) (pid : Nat) (q : ℚ)
    (dnp : Bool) (key : String) (q1 q2 : ℚ) (entries : List FlatEntry)
    (hocc : keyOccList fuel db dnp key pid q = some [q1, q2])
    (hflat : get_flattened_bom fuel db pid q dnp = some entries) :
    (entries.filter (fun e => entryKey e == key)).length = 1 ∧
    ∀ e ∈ entries, entryKey e = key → e.quantity = q1 + q2 := by
  unfold get_flattened_bom at hflat
  cases hf : flatten_recursive fuel db dnp pid q [] with
  | none => rw [hf] at hflat; exact absurd hflat (by simp)
  | some acc2 =>
    rw [hf] at hflat
    simp only [Option.map_some', Option.some.injEq] at hflat
    have hqty := flatten_qtyOf db dnp key fuel pid q [] acc2 [q1, q2] hf hocc
    rw [show qtyOf key ([] : List (String × FlatEntry)) = none from rfl] at hqty
    have hsum : qtyOf key acc2 = some (q1 + q2) := by
      rw [hqty]
      show mergeQ none [q1, q2] = _
      simp [mergeQ]
    obtain ⟨hnodup2, hkeys2⟩ := flatten_accKeys db dnp fuel pid q [] acc2 hf
      ⟨List.nodup_nil, fun kv hkv => absurd hkv (List.not_mem_nil kv)⟩
    cases hfind : acc2.find? (fun kv => kv.1 == key) with
    | none =>
      rw [show qtyOf key acc2 = none from by unfold qtyOf; rw [hfind]; rfl] at hsum
      exact absurd hsum (by simp)
    | some kv0 =>
      have hkv0q : kv0.2.quantity = q1 + q2 := by
        have : qtyOf key acc2 = some kv0.2.quantity := by
          unfold qtyOf
          rw [hfind]
          rfl
        rw [this] at hsum
        exact Option.some.inj hsum
      have hkv0mem := List.mem_of_find?_eq_some hfind
      have hkv0p0 := List.find?_some hfind
      have hkv0p : (kv0.1 == key) = true := hkv0p0
      have hfiltereq : entries.filter (fun e => entryKey e == key)
          = (acc2.filter (fun kv => kv.1 == key)).map Prod.snd := by
        rw [← hflat, List.filter_map]
        congr 1
        apply List.filter_congr
        intro kv hkv
        show (entryKey kv.2 == key) = (kv.1 == key)
        rw [← hkeys2 kv hkv]
      have hcount : (acc2.filter (fun kv => kv.1 == key)).length = 1 := by
        have hle := countP_key_le_one key acc2 hnodup2
        have hpos : 0 < acc2.countP (fun kv => kv.1 == key) :=
          List.countP_pos_iff.mpr ⟨kv0, hkv0mem, hkv0p⟩
        rw [List.countP_eq_length_filter] at hle hpos
        omega
      refine ⟨by rw [hfiltereq, List.length_map]; exact hcount, ?_⟩
      intro e hemem hekey
      rw [← hflat] at hemem
      obtain ⟨kv, hkvmem, rfl⟩ := List.mem_map.mp hemem
      obtain ⟨a, ha⟩ := List.length_eq_one.mp hcount
      have hkvp : (kv.1 == key) = true := by
        rw [beq_iff_eq, hkeys2 kv hkvmem]
        exact hekey
      have hkvf : kv ∈ acc2.filter (fun kv => kv.1 == key) :=
        List.mem_filter.mpr ⟨hkvmem, hkvp⟩
      have hkv0f : kv0 ∈ acc2.filter (fun kv => kv.1 == key) :=
        List.mem_filter.mpr ⟨hkv0mem, hkv0p⟩
      rw [ha, List.mem_singleton] at hkvf hkv0f
      rw [hkvf, ← hkv0f]
      exact hkv0q

/-- Concrete input for C6: component ("X", "M") appears directly in the
root (quantity 3) and inside sub-assembly S of edge quantity 2 (entry
quantity 2, so path-scaled occurrence 4). -/
def twoPathDB : DB :=
  { products := [⟨1, "ROOT", "r"⟩, ⟨2, "S", "s"⟩]
    components := [⟨10, "X", "M", "", "", "EA"⟩]
    component_sources := [⟨1, 10, "D", "", some 7, 1, none, 0⟩]
    bom_entries := [⟨1, 1, 10, 3, "", false⟩, ⟨2, 2, 10, 2, "", false⟩]
    sub_assemblies := [⟨1, 1, 2, 2, ""⟩]
    next_source_id := 2 }

/-- C6 witness: on `twoPathDB` the key "X|M" is encountered with scaled
quantities 3 and 4, and flattening yields exactly one entry of quantity 7. -/
theorem c6_witness :
    (([(⟨"X", "M", "", "", "EA", 7, some "D", some "", some 7, false⟩ : FlatEntry)]).filter
        (fun e => entryKey e == "X|M")).length = 1 ∧
    ∀ e ∈ [(⟨"X", "M", "", "", "EA", 7, some "D", some "", some 7, false⟩ : FlatEntry)],
      entryKey e = "X|M" → e.quantity = 3 + 4 := by
  have hocc : keyOccList 2 twoPathDB false "X|M" 1 1 = some [3, 4] := by
    norm_num [keyOccList, keyOccsSubs, flatKey, directComponents, joinedComponents,
      directSubAssemblies, joinedSubAssemblies, mkCompLine, bestSource, bestUnitCost,
      sourcesFor, dnpKeep, twoPathDB, List.insertionSort, List.orderedInsert]
    all_goals try simp
    all_goals try norm_num
  have hflat : get_flattened_bom 2 twoPathDB 1 1 false
      = some [⟨"X", "M", "", "", "EA", 7, some "D", some "", some 7, false⟩] := by
    norm_num [get_flattened_bom, flatten_recursive, flattenSubs, addComp, flatKey,
      newFlatEntry, bumpQuantity, directComponents, joinedComponents,
      directSubAssemblies, joinedSubAssemblies, mkCompLine, bestSource, bestUnitCost,
      sourcesFor, dnpKeep, twoPathDB, List.insertionSort, List.orderedInsert]
  exact c6_repeated_key_quantities_add 2 twoPathDB 1 1 false "X|M" 3 4 _ hocc hflat

end BomManager
